import Mathlib

set_option maxRecDepth 10000
set_option maxHeartbeats 2000000

/-!
Shallow embedding of the chunking / size-fitting / dispatch core of
`src/dev_news.py` (a Discord-webhook news script).

Strings are modelled as `List Char`.  Python's `str.strip()` is `pyStrip`,
`str.splitlines()` is `splitLines` (restricted to the `\n` separator: the
program removes `\r` before splitting and the other Python line separators
are exotic control characters that never occur in its data), and the three
regex substitutions of `_normalize_text` are implemented as deterministic
scanners (`headingSub`, `bulletSub`, `spaceCompress`) that mirror the
scanning behaviour of `re.sub` with the `MULTILINE` flag, including the
fact that a `\s*` inside a pattern may consume newlines.  Recursive
scanners take an explicit fuel argument (initialised to the string length,
which is always sufficient because each step consumes at least one
character) so that every definition is structural and kernel-reducible.

Dicts with optional keys become structures with `Option` fields; Python
truthiness of a string value (`if e.get("description")`) is "present and
non-empty".  The network transport is an oracle `tr : Nat → Payload → Resp`
giving the response to the k-th attempt of a retry loop.
-/

-- ---------------------------------------------------------------------
-- Basic Python string helpers
-- ---------------------------------------------------------------------

-- Python `str` whitespace (the ASCII part): space, \t, \n, \r, \v, \f.
def pySpace (c : Char) : Bool :=
  c == ' ' || c == '\t' || c == '\n' || c == '\r' ||
  c == Char.ofNat 11 || c == Char.ofNat 12

-- right strip: remove trailing whitespace.
def rstrip (l : List Char) : List Char := (l.reverse.dropWhile pySpace).reverse

-- Python `str.strip()`.
def pyStrip (l : List Char) : List Char :=
  ((l.dropWhile pySpace).reverse.dropWhile pySpace).reverse

-- The non-whitespace characters of a string, in order.
def nonsp (l : List Char) : List Char := l.filter (fun c => !pySpace c)

def consFirst (c : Char) : List (List Char) → List (List Char)
  | [] => [[c]]
  | l :: ls => (c :: l) :: ls

-- Python `str.splitlines()` on the newline character:
-- "a\nb" ↦ ["a","b"], "a\n" ↦ ["a"], "" ↦ [], "\n" ↦ [""].
def splitLines : List Char → List (List Char)
  | [] => []
  | c :: rest => if c == '\n' then [] :: splitLines rest else consFirst c (splitLines rest)

-- ---------------------------------------------------------------------
-- _normalize_text  (dev_news.py lines 58-67)
-- ---------------------------------------------------------------------

-- One match of `\s*#+\s*` at a line start (`re.sub(r"^\s*#+\s*", "", s, M)`).
-- Returns the rest of the string after the match together with the flag
-- "the last consumed character was a newline" (i.e. the rest starts at a
-- line start).  `\s*` is greedy and may cross newlines; no backtracking is
-- possible because a whitespace character is never `#`.
def hashMatch (l : List Char) : Option (List Char × Bool) :=
  match l.dropWhile pySpace with
  | c :: r =>
    if c == '#' then
      let r2 := (c :: r).dropWhile (fun x => x == '#')
      some (r2.dropWhile pySpace, (r2.takeWhile pySpace).getLast? == some '\n')
    else none
  | [] => none

def headingSubGo : Nat → Bool → List Char → List Char
  | 0, _, l => l
  | _ + 1, _, [] => []
  | fuel + 1, atStart, c :: rest =>
    if atStart then
      match hashMatch (c :: rest) with
      | some (r, nl) => headingSubGo fuel nl r
      | none => c :: headingSubGo fuel (c == '\n') rest
    else c :: headingSubGo fuel (c == '\n') rest

def headingSub (l : List Char) : List Char := headingSubGo l.length true l

-- One match of `[\-\*\•]\s*` at a line start (`re.sub(r"^[\-\*\•]\s*", ...)`).
def bulletMatch (l : List Char) : Option (List Char × Bool) :=
  match l with
  | c :: rest =>
    if c == '-' || c == '*' || c == '•' then
      some (rest.dropWhile pySpace, (rest.takeWhile pySpace).getLast? == some '\n')
    else none
  | [] => none

def bulletSubGo : Nat → Bool → List Char → List Char
  | 0, _, l => l
  | _ + 1, _, [] => []
  | fuel + 1, atStart, c :: rest =>
    if atStart then
      match bulletMatch (c :: rest) with
      | some (r, nl) => bulletSubGo fuel nl r
      | none => c :: bulletSubGo fuel (c == '\n') rest
    else c :: bulletSubGo fuel (c == '\n') rest

def bulletSub (l : List Char) : List Char := bulletSubGo l.length true l

def isST (c : Char) : Bool := c == ' ' || c == '\t'

-- `re.sub(r"[ \t]{2,}", " ", s)`: a maximal run of two or more
-- spaces/tabs becomes a single space; a lone space or tab is kept.
def spaceCompressGo : Nat → List Char → List Char
  | 0, l => l
  | _ + 1, [] => []
  | fuel + 1, c :: rest =>
    if isST c then
      match rest with
      | d :: _ =>
        if isST d then ' ' :: spaceCompressGo fuel (rest.dropWhile isST)
        else c :: spaceCompressGo fuel rest
      | [] => [c]
    else c :: spaceCompressGo fuel rest

def spaceCompress (l : List Char) : List Char := spaceCompressGo l.length l

def normalize_text (s : List Char) : List Char :=
  pyStrip (spaceCompress (bulletSub (headingSub (s.filter (fun c => c != '\r')))))

-- ---------------------------------------------------------------------
-- _is_junk_line  (dev_news.py lines 35-56)
-- ---------------------------------------------------------------------

-- The eleven JUNK_PATTERNS applied to the stripped, lowercased line; all
-- of them are anchored at the start, so each is either a whole-string
-- test (patterns ending in `$`) or a startsWith test.
def junkHit (s : List Char) : Bool :=
  s == "share with your followers".toList ||
  s == "share with your followers!".toList ||
  s == "publish".toList ||
  s == "dont show again".toList ||
  s == ("don".toList ++ [Char.ofNat 39] ++ "t show again".toList) ||
  ("cookie policy".toList).isPrefixOf s ||
  ("cookie settings".toList).isPrefixOf s ||
  ("cookies policy".toList).isPrefixOf s ||
  ("cookies settings".toList).isPrefixOf s ||
  ("accept all".toList).isPrefixOf s ||
  ("accept cookies".toList).isPrefixOf s ||
  ("subscribe".toList).isPrefixOf s ||
  ("sign in".toList).isPrefixOf s ||
  ("log in".toList).isPrefixOf s ||
  ("read more".toList).isPrefixOf s ||
  ("continuer sans accepter".toList).isPrefixOf s ||
  ("parametres de confidentialit".toList).isPrefixOf s ||
  ("parametre de confidentialit".toList).isPrefixOf s ||
  ("paramètres de confidentialit".toList).isPrefixOf s ||
  ("paramètre de confidentialit".toList).isPrefixOf s

-- `Char.toLower` lowercases the ASCII range, which is all the patterns use.
def is_junk_line (line : List Char) : Bool :=
  let s := (pyStrip line).map Char.toLower
  s.isEmpty || junkHit s

-- ---------------------------------------------------------------------
-- chunk_text  (dev_news.py lines 156-180)
-- ---------------------------------------------------------------------

-- `for i in range(0, len(line), size): chunks.append(line[i:i+size])`.
-- Fuel = length of the line; each step consumes `size ≥ 1` characters.
def hardSplitGo (size : Nat) : Nat → List Char → List (List Char)
  | 0, l => if l.isEmpty then [] else [l]
  | fuel + 1, l => if l.isEmpty then [] else l.take size :: hardSplitGo size fuel (l.drop size)

def hardSplit (size : Nat) (l : List Char) : List (List Char) := hardSplitGo size l.length l

-- The line loop of chunk_text: accumulate stripped non-empty lines into a
-- buffer joined by newlines; flush when the next line would overflow;
-- hard-split a single line longer than `size`.
def chunkGo (size : Nat) : List (List Char) → List Char → List (List Char)
  | [], buf => if buf.isEmpty then [] else [buf]
  | l :: ls, buf =>
    let line := pyStrip l
    if line.isEmpty then chunkGo size ls buf
    else
      let addLen := line.length + (if buf.isEmpty then 0 else 1)
      if size < buf.length + addLen then
        (if buf.isEmpty then [] else [buf]) ++
          (if size < line.length then hardSplit size line ++ chunkGo size ls []
           else chunkGo size ls line)
      else chunkGo size ls (if buf.isEmpty then line else buf ++ '\n' :: line)

def chunk_text (txt : List Char) (size : Nat) : List (List Char) :=
  let t := normalize_text txt
  if t.isEmpty then []
  else
    (chunkGo size (splitLines t) []).filterMap
      (fun c => let s := pyStrip c; if s.isEmpty then none else some (s.take size))

-- ---------------------------------------------------------------------
-- Embeds: _clean_embed, _embed_size, _shrink_to_fit  (lines 182-273)
-- ---------------------------------------------------------------------

structure EField where
  name : List Char
  value : List Char
deriving DecidableEq

-- A Discord embed ("card").  The footer is modelled by its text; the
-- color key plays no role in any size computation and is omitted.
structure Embed where
  title : Option (List Char)
  description : Option (List Char)
  fields : Option (List EField)
  footer : Option (List Char)
deriving DecidableEq

def DISCORD_MAX_EMBED : Nat := 6000
def EMBED_TARGET_BUDGET : Nat := 3500
def DISCORD_MAX_TITLE : Nat := 256
def DISCORD_MAX_DESC : Nat := 4096
def FIELD_HARD_MAX : Nat := 1024
def FIELD_SOFT_MAX : Nat := 450
def DESC_SOFT_MAX : Nat := 180

-- The ellipsis character "…" appended by every truncation (one character).
def ell : Char := Char.ofNat 0x2026

-- strip, drop if empty, clamp to n  (title/description handling in _clean_embed).
def cleanOpt (n : Nat) : Option (List Char) → Option (List Char)
  | none => none
  | some t =>
    let s := pyStrip t
    if s.isEmpty then none else some (s.take n)

-- value soft-truncation and hard clamp of _clean_embed.
def softValue (v : List Char) : List Char :=
  (if FIELD_SOFT_MAX < v.length then v.take FIELD_SOFT_MAX ++ [ell] else v).take FIELD_HARD_MAX

def cleanField (f : EField) : Option EField :=
  let name := normalize_text f.name
  let value := normalize_text f.value
  if name.isEmpty || value.isEmpty then none
  else some ⟨name.take 256, softValue value⟩

def cleanFields : Option (List EField) → Option (List EField)
  | none => none
  | some fs =>
    let vv := fs.filterMap cleanField
    if vv.isEmpty then none else some vv

def clean_embed (e : Embed) : Embed :=
  { title := cleanOpt DISCORD_MAX_TITLE e.title
    description := cleanOpt DISCORD_MAX_DESC e.description
    fields := cleanFields e.fields
    footer := e.footer }

def olen : Option (List Char) → Nat
  | none => 0
  | some l => l.length

def fieldsSum (fs : List EField) : Nat :=
  fs.foldr (fun f a => f.name.length + f.value.length + a) 0

def embed_size (e : Embed) : Nat :=
  olen e.title + olen e.description + fieldsSum (e.fields.getD []) + olen e.footer

def descLen (e : Embed) : Nat := olen e.description

-- One pass of the first (soft-target) shrink loop body: description
-- longer than 90 loses its last 60 characters (plus "…"), else the first
-- field value longer than 120 loses its last 80 (plus "…"), else stop.
def tier1Field (e : Embed) : Option Embed :=
  match e.fields with
  | some (f :: fs) =>
    if 120 < f.value.length then
      some (clean_embed
        { e with fields := some ({ f with value := f.value.take (f.value.length - 80) ++ [ell] } :: fs) })
    else none
  | _ => none

def tier1Step (e : Embed) : Option Embed :=
  match e.description with
  | some d =>
    if 90 < d.length then
      some (clean_embed { e with description := some (d.take (d.length - 60) ++ [ell]) })
    else tier1Field e
  | none => tier1Field e

def tier1 (target : Nat) : Nat → Embed → Embed
  | 0, e => e
  | fuel + 1, e =>
    if embed_size e ≤ target then e
    else
      match tier1Step e with
      | some e2 => tier1 target fuel e2
      | none => e

-- The second (hard-ceiling) loop body: shrink description by 30, else the
-- first field value by 50, else clear the description, else drop the
-- first field, else stop.
def tier2Pop (e : Embed) : Option Embed :=
  match e.fields with
  | some (_ :: fs) => some (clean_embed { e with fields := some fs })
  | _ => none

def tier2Clear (e : Embed) : Option Embed :=
  match e.description with
  | some d =>
    if d.isEmpty then tier2Pop e
    else some (clean_embed { e with description := some [] })
  | none => tier2Pop e

def tier2Field (e : Embed) : Option Embed :=
  match e.fields with
  | some (f :: fs) =>
    if 50 < f.value.length then
      some (clean_embed
        { e with fields := some ({ f with value := f.value.take (f.value.length - 50) ++ [ell] } :: fs) })
    else tier2Clear e
  | _ => tier2Clear e

def tier2Step (e : Embed) : Option Embed :=
  match e.description with
  | some d =>
    if 30 < d.length then
      some (clean_embed { e with description := some (d.take (d.length - 30) ++ [ell]) })
    else tier2Field e
  | none => tier2Field e

def tier2 : Nat → Embed → Embed
  | 0, e => e
  | fuel + 1, e =>
    if embed_size e ≤ DISCORD_MAX_EMBED then e
    else
      match tier2Step e with
      | some e2 => tier2 fuel e2
      | none => e

def shrink_to_fit (e : Embed) (target : Nat) : Embed :=
  let e1 := clean_embed e
  let e2 :=
    match e1.description with
    | some d =>
      if DESC_SOFT_MAX < d.length then
        clean_embed { e1 with description := some (d.take DESC_SOFT_MAX ++ [ell]) }
      else e1
    | none => e1
  tier2 100 (tier1 target 100 e2)

-- ---------------------------------------------------------------------
-- Transport: _retry_shrink_and_send, _send_embeds_in_batches (275-313)
-- ---------------------------------------------------------------------

structure Resp where
  ok : Bool
  text : List Char
deriving DecidableEq

structure Payload where
  embeds : List Embed
deriving DecidableEq

inductive SendErr where
  | payloadErr : SendErr
  | exhausted : SendErr
deriving DecidableEq

def oversizeNeedle : List Char := "Embed size exceeds maximum size of 6000".toList

-- Python `pat in text` substring containment.
def containsSub (pat : List Char) : List Char → Bool
  | [] => pat.isEmpty
  | c :: t => pat.isPrefixOf (c :: t) || containsSub pat t

def descLimits : List Nat := [120, 80, 50]
def fieldLimits : List Nat := [350, 250, 200]

-- The "more aggressive shrink for retry" applied to one embed at a given
-- attempt index: truncate the description and the first field value to
-- the attempt-indexed limit (clamped to the last list entry).
def retryTrunc (attempt : Nat) (em : Embed) : Embed :=
  let em1 :=
    match em.description with
    | some d =>
      if d.isEmpty then em
      else { em with description := some ((normalize_text d).take (descLimits.getD (min attempt 2) 0) ++ [ell]) }
    | none => em
  match em1.fields with
  | some (f :: fs) =>
    { em1 with fields := some ({ f with value := (normalize_text f.value).take (fieldLimits.getD (min attempt 2) 0) ++ [ell] } :: fs) }
  | _ => em1

def shrinkPayload (attempt : Nat) (p : Payload) : Payload :=
  ⟨p.embeds.map (fun em => clean_embed (shrink_to_fit (retryTrunc attempt em) 3000))⟩

-- The retry loop of _retry_shrink_and_send.  The result also carries the
-- list of payloads actually posted, in order, so that theorems can talk
-- about how many transport calls were made and with what.
def retrySendGo (tr : Nat → Payload → Resp) : Nat → Nat → Payload → Except SendErr Unit × List Payload
  | _, 0, _ => (Except.error SendErr.exhausted, [])
  | attempt, fuel + 1, p =>
    let r := tr attempt p
    if r.ok then (Except.ok (), [p])
    else if !containsSub oversizeNeedle r.text then (Except.error SendErr.payloadErr, [p])
    else
      let rest := retrySendGo tr (attempt + 1) fuel (shrinkPayload attempt p)
      (rest.1, p :: rest.2)

def retry_shrink_and_send (tr : Nat → Payload → Resp) (p : Payload) (maxRetries : Nat) :
    Except SendErr Unit × List Payload :=
  retrySendGo tr 0 (maxRetries + 1) p

-- Python truthiness of `em.get("title") or em.get("description") or em.get("fields")`.
def truthyOpt : Option (List Char) → Bool
  | some (_ :: _) => true
  | _ => false

def truthyFields : Option (List EField) → Bool
  | some (_ :: _) => true
  | _ => false

def isTruthyEmbed (e : Embed) : Bool :=
  truthyOpt e.title || truthyOpt e.description || truthyFields e.fields

-- Per-embed preparation inside a batch (footer only on the first embed,
-- fit at the target budget, refit at 3000 if still over, final clean).
def fitForBatch (j : Nat) (em : Embed) : Embed :=
  let em0 := if 0 < j then { em with footer := none } else em
  let em1 := shrink_to_fit em0 EMBED_TARGET_BUDGET
  let em2 := if EMBED_TARGET_BUDGET < embed_size em1 then shrink_to_fit em1 3000 else em1
  clean_embed em2

def mkBatchPayload (batch : List Embed) : Payload :=
  ⟨(batch.mapIdx fitForBatch).filter isTruthyEmbed⟩

def DISCORD_MAX_EMBEDS : Nat := 10

def batchesGo : Nat → List Embed → List (List Embed)
  | 0, _ => []
  | _ + 1, [] => []
  | fuel + 1, l => l.take DISCORD_MAX_EMBEDS :: batchesGo fuel (l.drop DISCORD_MAX_EMBEDS)

def batches (l : List Embed) : List (List Embed) := batchesGo l.length l

def sendBatchesGo (tr : Nat → Payload → Resp) : List (List Embed) → Except SendErr Unit × List Payload
  | [] => (Except.ok (), [])
  | b :: bs =>
    let r := retry_shrink_and_send tr (mkBatchPayload b) 3
    match r.1 with
    | Except.ok _ =>
      let r2 := sendBatchesGo tr bs
      (r2.1, r.2 ++ r2.2)
    | Except.error err => (Except.error err, r.2)

def send_embeds_in_batches (tr : Nat → Payload → Resp) (embeds : List Embed) :
    Except SendErr Unit × List Payload :=
  sendBatchesGo tr (batches embeds)

-- ---------------------------------------------------------------------
-- split_summary_links  (dev_news.py lines 386-416)
-- ---------------------------------------------------------------------

-- `re.search(r"^\s*#+\s*(.+)", md)` on an already stripped `md` (the
-- function strips its input first).  Without the MULTILINE flag the `^`
-- anchors only at position 0, so a match exists iff the stripped text
-- starts with '#'.  Returns (group 1, end position of the match).
-- For `md` = k hashes only, the regex backtracks `#+` to k-1 hashes and
-- group 1 is "#" (needs k ≥ 2).
def titleMatch (s : List Char) : Option (List Char × Nat) :=
  match s with
  | '#' :: _ =>
    let k := (s.takeWhile (fun c => c == '#')).length
    let rest := s.drop k
    let w := (rest.takeWhile pySpace).length
    let rest2 := rest.drop w
    match rest2 with
    | [] => if 2 ≤ k then some (['#'], k) else none
    | _ =>
      let g := rest2.takeWhile (fun c => c != '\n')
      some (g, k + w + g.length)
  | _ => none

-- case-insensitive literal word match (the pattern letters are lowercase).
def matchWordCI : List Char → List Char → Option (List Char)
  | [], l => some l
  | _ :: _, [] => none
  | w :: ws, c :: cs => if c.toLower == w then matchWordCI ws cs else none

def lastIdxNL : List Char → Option Nat
  | [] => none
  | c :: cs =>
    match lastIdxNL cs with
    | some j => some (j + 1)
    | none => if c == '\n' then some 0 else none

-- One match of `^\s*#{0,3}\s*<word>s?\s*$` (IGNORECASE|MULTILINE) at a
-- line start.  Returns the rest after the match and whether the match
-- ended just after a newline (so the rest is again at a line start).
-- The trailing `\s*$` consumes up to the last newline of the trailing
-- whitespace run, or everything when the run reaches the end of string.
def tryHeading (word : List Char) (l : List Char) : Option (List Char × Bool) :=
  let r1 := l.dropWhile pySpace
  let hs := r1.takeWhile (fun c => c == '#')
  if 3 < hs.length then none
  else
    match matchWordCI word ((r1.drop hs.length).dropWhile pySpace) with
    | none => none
    | some r4 =>
      let r5 :=
        match r4 with
        | c :: cs => if c.toLower == 's' then cs else r4
        | [] => r4
      let ws := r5.takeWhile pySpace
      let rest := r5.drop ws.length
      if rest.isEmpty then some ([], false)
      else
        match lastIdxNL ws with
        | none => none
        | some j => some (ws.drop j ++ rest, decide (0 < j) && (ws.getD (j - 1) ' ' == '\n'))

-- `re.split` of the heading pattern: the list of segments between matches.
def splitGo (word : List Char) : Nat → Bool → List Char → List Char → List (List Char)
  | 0, _, seg, l => [seg.reverse ++ l]
  | _ + 1, _, seg, [] => [seg.reverse]
  | fuel + 1, atStart, seg, c :: rest =>
    if atStart then
      match tryHeading word (c :: rest) with
      | some (r, nl) => seg.reverse :: splitGo word fuel nl [] r
      | none => splitGo word fuel (c == '\n') (c :: seg) rest
    else splitGo word fuel (c == '\n') (c :: seg) rest

def splitOnHeading (word : List Char) (md : List Char) : List (List Char) :=
  splitGo word md.length true [] md

def linkWord : List Char := "link".toList
def lienWord : List Char := "lien".toList

-- parts = LINKS split; if fewer than 2 parts, the LIENS split.
def partsOf (s : List Char) : List (List Char) :=
  let p := splitOnHeading linkWord s
  if p.length < 2 then splitOnHeading lienWord s else p

def split_summary_links (md fallbackTitle : List Char) : List Char × List Char × List Char :=
  let s := pyStrip md
  if s.isEmpty then (fallbackTitle, [], [])
  else
    let tm := titleMatch s
    let title :=
      match tm with
      | some (g, _) => pyStrip g
      | none => fallbackTitle
    let parts := partsOf s
    let bullets0 := if 2 ≤ parts.length then pyStrip (parts.getD 0 []) else s
    let links := if 2 ≤ parts.length then pyStrip (parts.getD 1 []) else []
    let bullets :=
      match tm with
      | some (_, en) => if en < s.length then pyStrip (s.drop en) else bullets0
      | none => bullets0
    (title, bullets, links)

-- ---------------------------------------------------------------------
-- Claim-level predicates and concrete test data
-- ---------------------------------------------------------------------

-- C1's "every shrinkable field reduced to its minimum working length or
-- emptied": description at most the tier-1 minimum (90) and every field
-- value at most the tier-1 minimum working length (120).
def fullyShrunk (e : Embed) : Prop :=
  descLen e ≤ 90 ∧ ∀ f ∈ e.fields.getD [], f.value.length ≤ 120

instance (e : Embed) : Decidable (fullyShrunk e) := by
  unfold fullyShrunk; infer_instance

-- C7's "subfields within the hard per-subfield maxima".
def withinHardMaxima (e : Embed) : Prop :=
  olen e.title ≤ DISCORD_MAX_TITLE ∧ olen e.description ≤ DISCORD_MAX_DESC ∧
  ∀ f ∈ e.fields.getD [], f.name.length ≤ 256 ∧ f.value.length ≤ FIELD_HARD_MAX

instance (e : Embed) : Decidable (withinHardMaxima e) := by
  unfold withinHardMaxima; infer_instance

-- The non-empty stripped lines of the normalized input (what chunk_text
-- actually keeps), and the same with junk lines additionally removed
-- (what the spec sentence for C8 claims).
def goodLines (txt : List Char) : List (List Char) :=
  ((splitLines (normalize_text txt)).map pyStrip).filter (fun l => !l.isEmpty)

def nonJunkLines (txt : List Char) : List (List Char) :=
  ((splitLines (normalize_text txt)).map pyStrip).filter (fun l => !l.isEmpty && !is_junk_line l)

-- concatenation with chunk-boundary newlines reinserted.
def joinNL : List (List Char) → List Char
  | [] => []
  | [c] => c
  | c :: c2 :: cs => c ++ '\n' :: joinNL (c2 :: cs)

-- flattened non-whitespace content of a chunk list, in order.
def nonspCat (ls : List (List Char)) : List Char :=
  ls.foldr (fun l a => nonsp l ++ a) []

-- Concrete data for counterexamples and witnesses.
def c1card : Embed :=
  ⟨none, none, some [⟨['a'], List.replicate 130 'b'⟩, ⟨['c'], List.replicate 121 'd'⟩], none⟩

def c4txt : List Char := "a b".toList

def c7card : Embed := ⟨some ['t'], none, some [⟨['n'], List.replicate 500 'a'⟩], none⟩

def c7good : Embed := ⟨some "ti".toList, some "de".toList, some [⟨['n'], ['v']⟩], some "f".toList⟩

def c8txt : List Char := "subscribe".toList

def c9md : List Char := "# T\nbody\nLinks\nurl1".toList

def c9fb : List Char := "fb".toList

def emptyCard : Embed := ⟨none, none, none, none⟩

def okTr : Nat → Payload → Resp := fun _ _ => ⟨true, []⟩

def rejectOversizeTr : Nat → Payload → Resp := fun _ _ => ⟨false, oversizeNeedle⟩

def rejectOtherTr : Nat → Payload → Resp := fun _ _ => ⟨false, ['z']⟩

-- The payload sequence a permanently rejecting transport receives:
-- each retry shrinks the previous payload at the current attempt index.
def shrinkIter : Nat → Nat → Payload → List Payload
  | _, 0, _ => []
  | a, fuel + 1, p => p :: shrinkIter (a + 1) fuel (shrinkPayload a p)

-- ---------------------------------------------------------------------
-- Helper lemmas: dropWhile / pyStrip / nonsp
-- ---------------------------------------------------------------------

theorem length_dropWhile_le {α : Type} (p : α → Bool) (l : List α) :
    (l.dropWhile p).length ≤ l.length := by
  induction l with
  | nil => simp
  | cons c t ih =>
    by_cases h : p c
    · simp only [List.dropWhile_cons, h, if_true]
      exact Nat.le_succ_of_le ih
    · simp [List.dropWhile_cons, h]

theorem dropWhile_eq_self_of_length {α : Type} {p : α → Bool} {l : List α}
    (h : (l.dropWhile p).length = l.length) : l.dropWhile p = l := by
  cases l with
  | nil => rfl
  | cons c t =>
    by_cases hc : p c
    · exfalso
      have h1 : (List.dropWhile p t).length ≤ t.length := length_dropWhile_le p t
      rw [List.dropWhile_cons, if_pos hc] at h
      simp only [List.length_cons] at h
      omega
    · rw [List.dropWhile_cons, if_neg hc]

theorem dropWhile_idem {α : Type} (p : α → Bool) (l : List α) :
    (l.dropWhile p).dropWhile p = l.dropWhile p := by
  induction l with
  | nil => rfl
  | cons c t ih =>
    by_cases h : p c
    · simp [List.dropWhile_cons, h, ih]
    · simp [List.dropWhile_cons, h]

theorem dropWhile_append_last {α : Type} (p : α → Bool) {c : α} (h : p c = false)
    (xs : List α) : ((xs ++ [c]).dropWhile p) = xs.dropWhile p ++ [c] := by
  induction xs with
  | nil => simp [List.dropWhile_cons, h]
  | cons y ys ih =>
    by_cases hy : p y <;> simp [List.dropWhile_cons, hy, ih]

theorem rstrip_cons {c : Char} (h : pySpace c = false) (t : List Char) :
    rstrip (c :: t) = c :: rstrip t := by
  unfold rstrip
  rw [show (c :: t).reverse = t.reverse ++ [c] by simp,
    dropWhile_append_last pySpace h t.reverse]
  simp

theorem rstrip_length_le (l : List Char) : (rstrip l).length ≤ l.length := by
  unfold rstrip
  simpa using length_dropWhile_le pySpace l.reverse

theorem pyStrip_eq_rstrip_ldrop (l : List Char) :
    pyStrip l = rstrip (l.dropWhile pySpace) := rfl

theorem pyStrip_length_le (l : List Char) : (pyStrip l).length ≤ l.length := by
  rw [pyStrip_eq_rstrip_ldrop]
  exact le_trans (rstrip_length_le _) (length_dropWhile_le pySpace l)

theorem dropWhile_cons_false {α : Type} {p : α → Bool} {l : List α} {c : α} {t : List α}
    (h : l.dropWhile p = c :: t) : p c = false := by
  induction l with
  | nil => simp at h
  | cons y ys ih =>
    rw [List.dropWhile_cons] at h
    by_cases hy : p y
    · rw [if_pos hy] at h; exact ih h
    · rw [if_neg hy] at h
      injection h with h1 _
      subst h1
      simpa using hy

-- the stripped string is a fixed point of the left strip
theorem pyStrip_ldrop (l : List Char) : (pyStrip l).dropWhile pySpace = pyStrip l := by
  rw [pyStrip_eq_rstrip_ldrop]
  rcases hd : l.dropWhile pySpace with _ | ⟨c, t⟩
  · rfl
  · have hc : pySpace c = false := dropWhile_cons_false hd
    rw [rstrip_cons hc, List.dropWhile_cons, hc]
    simp

theorem rstrip_idem (l : List Char) : rstrip (rstrip l) = rstrip l := by
  unfold rstrip
  rw [List.reverse_reverse, dropWhile_idem]

theorem pyStrip_rstrip (l : List Char) : rstrip (pyStrip l) = pyStrip l := by
  rw [pyStrip_eq_rstrip_ldrop, rstrip_idem]

theorem pyStrip_eq_self_of (l : List Char) (h1 : l.dropWhile pySpace = l)
    (h2 : rstrip l = l) : pyStrip l = l := by
  rw [pyStrip_eq_rstrip_ldrop, h1, h2]

theorem pyStrip_idem (l : List Char) : pyStrip (pyStrip l) = pyStrip l := by
  refine pyStrip_eq_self_of _ (pyStrip_ldrop l) (pyStrip_rstrip l)

-- a stripped string is a fixed point of both one-sided strips
theorem stripped_ldrop {l : List Char} (h : pyStrip l = l) : l.dropWhile pySpace = l := by
  apply dropWhile_eq_self_of_length
  have h1 : (pyStrip l).length ≤ (l.dropWhile pySpace).length := by
    rw [pyStrip_eq_rstrip_ldrop]; exact rstrip_length_le _
  have h2 := length_dropWhile_le pySpace l
  rw [h] at h1
  omega

theorem stripped_rstrip {l : List Char} (h : pyStrip l = l) : rstrip l = l := by
  have h2 := h
  rw [pyStrip_eq_rstrip_ldrop, stripped_ldrop h] at h2
  exact h2

theorem dropWhile_eq_self_head_false {α : Type} {p : α → Bool} {c : α} {t : List α}
    (h : (c :: t).dropWhile p = c :: t) : p c = false := by
  by_cases hc : p c
  · exfalso
    rw [List.dropWhile_cons, if_pos hc] at h
    have h1 := length_dropWhile_le p t
    have h2 : (List.dropWhile p t).length = (c :: t).length := by rw [h]
    simp only [List.length_cons] at h2
    omega
  · simpa using hc

theorem stripped_head_false {c : Char} {t : List Char} (h : pyStrip (c :: t) = c :: t) :
    pySpace c = false :=
  dropWhile_eq_self_head_false (stripped_ldrop h)

theorem stripped_rev_ldrop {b : List Char} (hb : pyStrip b = b) :
    b.reverse.dropWhile pySpace = b.reverse := by
  have h := stripped_rstrip hb
  unfold rstrip at h
  have h2 := congrArg List.reverse h
  simpa using h2

theorem dropWhile_append_self {α : Type} {p : α → Bool} {u v : List α}
    (hu : u.dropWhile p = u) (hnu : u ≠ []) : (u ++ v).dropWhile p = u ++ v := by
  cases u with
  | nil => exact absurd rfl hnu
  | cons d s =>
    have hd := dropWhile_eq_self_head_false hu
    rw [List.cons_append, List.dropWhile_cons, hd]
    simp

-- joining two stripped non-empty strings with a newline is stripped
theorem pyStrip_append_mid {a b : List Char} (ha : pyStrip a = a) (hb : pyStrip b = b)
    (hna : a ≠ []) (hnb : b ≠ []) : pyStrip (a ++ '\n' :: b) = a ++ '\n' :: b := by
  apply pyStrip_eq_self_of
  · exact dropWhile_append_self (stripped_ldrop ha) hna
  · unfold rstrip
    rw [show (a ++ '\n' :: b).reverse = b.reverse ++ ('\n' :: a.reverse) by simp]
    rw [dropWhile_append_self (stripped_rev_ldrop hb) (by simpa using hnb)]
    simp

theorem nonsp_append (a b : List Char) : nonsp (a ++ b) = nonsp a ++ nonsp b := by
  unfold nonsp; exact List.filter_append a b

theorem nonsp_dropWhile (l : List Char) : nonsp (l.dropWhile pySpace) = nonsp l := by
  induction l with
  | nil => rfl
  | cons c t ih =>
    by_cases h : pySpace c
    · rw [List.dropWhile_cons, if_pos h, ih]
      unfold nonsp
      rw [List.filter_cons]
      simp [h]
    · rw [List.dropWhile_cons, if_neg h]

theorem nonsp_reverse (l : List Char) : nonsp l.reverse = (nonsp l).reverse := by
  unfold nonsp; exact List.filter_reverse _ l

theorem nonsp_rstrip (l : List Char) : nonsp (rstrip l) = nonsp l := by
  unfold rstrip
  rw [nonsp_reverse, nonsp_dropWhile, nonsp_reverse, List.reverse_reverse]

theorem nonsp_pyStrip (l : List Char) : nonsp (pyStrip l) = nonsp l := by
  rw [pyStrip_eq_rstrip_ldrop, nonsp_rstrip, nonsp_dropWhile]

theorem nonsp_nil_of_strip_nil {l : List Char} (h : pyStrip l = []) : nonsp l = [] := by
  rw [← nonsp_pyStrip, h]; rfl

-- ---------------------------------------------------------------------
-- hardSplit lemmas
-- ---------------------------------------------------------------------

theorem hardSplitGo_nil (size fuel : Nat) : hardSplitGo size fuel [] = [] := by
  cases fuel <;> rfl

theorem hardSplitGo_join {size : Nat} (hs : 1 ≤ size) :
    ∀ fuel l, l.length ≤ fuel → (hardSplitGo size fuel l).join = l := by
  intro fuel
  induction fuel with
  | zero =>
    intro l h
    have hl : l = [] := List.length_eq_zero.mp (Nat.le_antisymm h (Nat.zero_le _))
    subst hl; rfl
  | succ n ih =>
    intro l h
    by_cases hl : l = []
    · subst hl; rfl
    · have hne : l.isEmpty = false := by simpa [List.isEmpty_iff] using hl
      have hlen : 0 < l.length := List.length_pos.mpr hl
      have hdrop : (l.drop size).length ≤ n := by
        rw [List.length_drop]
        omega
      simp only [hardSplitGo, hne, Bool.false_eq_true, if_false, List.join_cons,
        ih (l.drop size) hdrop, List.take_append_drop]

theorem hardSplit_join {size : Nat} (hs : 1 ≤ size) (l : List Char) :
    (hardSplit size l).join = l :=
  hardSplitGo_join hs l.length l le_rfl

theorem hardSplitGo_mem_length {size : Nat} (hs : 1 ≤ size) :
    ∀ fuel l, l.length ≤ fuel → ∀ c ∈ hardSplitGo size fuel l, c.length ≤ size := by
  intro fuel
  induction fuel with
  | zero =>
    intro l h c hc
    have hl : l = [] := List.length_eq_zero.mp (Nat.le_antisymm h (Nat.zero_le _))
    subst hl; simp [hardSplitGo] at hc
  | succ n ih =>
    intro l h c hc
    by_cases hl : l = []
    · subst hl; simp [hardSplitGo] at hc
    · have hne : l.isEmpty = false := by simpa [List.isEmpty_iff] using hl
      simp only [hardSplitGo, hne, Bool.false_eq_true, if_false, List.mem_cons] at hc
      rcases hc with hc | hc
      · subst hc; simp [List.length_take]
      · have hdrop : (l.drop size).length ≤ n := by
          have hlen : 0 < l.length := List.length_pos.mpr hl
          rw [List.length_drop]
          omega
        exact ih (l.drop size) hdrop c hc

theorem hardSplitGo_mem_ne {size : Nat} (hs : 1 ≤ size) :
    ∀ fuel l, ∀ c ∈ hardSplitGo size fuel l, c ≠ [] := by
  intro fuel
  induction fuel with
  | zero =>
    intro l c hc
    by_cases hl : l = []
    · subst hl; simp [hardSplitGo] at hc
    · have hne : l.isEmpty = false := by simpa [List.isEmpty_iff] using hl
      simp only [hardSplitGo, hne, Bool.false_eq_true, if_false, List.mem_singleton] at hc
      subst hc; exact hl
  | succ n ih =>
    intro l c hc
    by_cases hl : l = []
    · subst hl; simp [hardSplitGo] at hc
    · have hne : l.isEmpty = false := by simpa [List.isEmpty_iff] using hl
      simp only [hardSplitGo, hne, Bool.false_eq_true, if_false, List.mem_cons] at hc
      rcases hc with hc | hc
      · subst hc
        have hlen : 0 < l.length := List.length_pos.mpr hl
        have : 0 < (l.take size).length := by
          rw [List.length_take]; omega
        exact List.length_pos.mp this
      · exact ih (l.drop size) c hc

-- ---------------------------------------------------------------------
-- chunkGo equation lemmas and invariants
-- ---------------------------------------------------------------------

theorem isEmpty_false_of_ne {α : Type} {l : List α} (h : l ≠ []) : l.isEmpty = false := by
  simpa [List.isEmpty_iff] using h

theorem chunkGo_nil (size : Nat) (buf : List Char) :
    chunkGo size [] buf = if buf.isEmpty then [] else [buf] := rfl

theorem chunkGo_cons_blank {l : List Char} (size : Nat) (ls : List (List Char))
    (buf : List Char) (h : pyStrip l = []) :
    chunkGo size (l :: ls) buf = chunkGo size ls buf := by
  simp [chunkGo, h]

theorem chunkGo_cons_over_long {size : Nat} {l buf : List Char} (ls : List (List Char))
    (h1 : pyStrip l ≠ [])
    (h2 : size < buf.length + ((pyStrip l).length + (if buf.isEmpty then 0 else 1)))
    (h3 : size < (pyStrip l).length) :
    chunkGo size (l :: ls) buf =
      (if buf.isEmpty then [] else [buf]) ++ (hardSplit size (pyStrip l) ++ chunkGo size ls []) := by
  simp only [chunkGo, isEmpty_false_of_ne h1, Bool.false_eq_true, if_false, if_pos h2, if_pos h3]

theorem chunkGo_cons_over_short {size : Nat} {l buf : List Char} (ls : List (List Char))
    (h1 : pyStrip l ≠ [])
    (h2 : size < buf.length + ((pyStrip l).length + (if buf.isEmpty then 0 else 1)))
    (h3 : ¬size < (pyStrip l).length) :
    chunkGo size (l :: ls) buf =
      (if buf.isEmpty then [] else [buf]) ++ chunkGo size ls (pyStrip l) := by
  simp only [chunkGo, isEmpty_false_of_ne h1, Bool.false_eq_true, if_false, if_pos h2, if_neg h3]

theorem chunkGo_cons_fits {size : Nat} {l buf : List Char} (ls : List (List Char))
    (h1 : pyStrip l ≠ [])
    (h2 : ¬size < buf.length + ((pyStrip l).length + (if buf.isEmpty then 0 else 1))) :
    chunkGo size (l :: ls) buf =
      chunkGo size ls (if buf.isEmpty then pyStrip l else buf ++ '\n' :: pyStrip l) := by
  simp only [chunkGo, isEmpty_false_of_ne h1, Bool.false_eq_true, if_false, if_neg h2]

theorem chunkGo_ne_nil {size : Nat} :
    ∀ lines : List (List Char), ∀ buf : List Char, buf ≠ [] → chunkGo size lines buf ≠ [] := by
  intro lines
  induction lines with
  | nil =>
    intro buf hb
    rw [chunkGo_nil, if_neg (by simpa [List.isEmpty_iff] using hb)]
    simp
  | cons l ls ih =>
    intro buf hb
    by_cases hl : pyStrip l = []
    · rw [chunkGo_cons_blank size ls buf hl]; exact ih buf hb
    · by_cases h2 : size < buf.length + ((pyStrip l).length + (if buf.isEmpty then 0 else 1))
      · by_cases h3 : size < (pyStrip l).length
        · rw [chunkGo_cons_over_long ls hl h2 h3,
            if_neg (by simpa [List.isEmpty_iff] using hb)]
          simp
        · rw [chunkGo_cons_over_short ls hl h2 h3,
            if_neg (by simpa [List.isEmpty_iff] using hb)]
          simp
      · rw [chunkGo_cons_fits ls hl h2]
        apply ih
        by_cases hbe : buf.isEmpty
        · rw [if_pos hbe]; exact hl
        · rw [if_neg hbe]; simp

-- every chunk the loop produces is no longer than `size`
theorem chunkGo_mem_length {size : Nat} (hs : 1 ≤ size) :
    ∀ lines : List (List Char), ∀ buf : List Char, buf.length ≤ size →
      ∀ c ∈ chunkGo size lines buf, c.length ≤ size := by
  intro lines
  induction lines with
  | nil =>
    intro buf hb c hc
    rw [chunkGo_nil] at hc
    by_cases hbe : buf.isEmpty
    · rw [if_pos hbe] at hc; simp at hc
    · rw [if_neg hbe] at hc
      simp only [List.mem_singleton] at hc
      subst hc; exact hb
  | cons l ls ih =>
    intro buf hb c hc
    by_cases hl : pyStrip l = []
    · rw [chunkGo_cons_blank size ls buf hl] at hc; exact ih buf hb c hc
    · by_cases h2 : size < buf.length + ((pyStrip l).length + (if buf.isEmpty then 0 else 1))
      · by_cases h3 : size < (pyStrip l).length
        · rw [chunkGo_cons_over_long ls hl h2 h3] at hc
          rcases List.mem_append.mp hc with hc | hc
          · by_cases hbe : buf.isEmpty
            · rw [if_pos hbe] at hc; simp at hc
            · rw [if_neg hbe] at hc
              simp only [List.mem_singleton] at hc; subst hc; exact hb
          · rcases List.mem_append.mp hc with hc | hc
            · exact hardSplitGo_mem_length hs _ _ le_rfl c hc
            · exact ih [] (by simpa using Nat.zero_le size) c hc
        · rw [chunkGo_cons_over_short ls hl h2 h3] at hc
          rcases List.mem_append.mp hc with hc | hc
          · by_cases hbe : buf.isEmpty
            · rw [if_pos hbe] at hc; simp at hc
            · rw [if_neg hbe] at hc
              simp only [List.mem_singleton] at hc; subst hc; exact hb
          · exact ih (pyStrip l) (by omega) c hc
      · rw [chunkGo_cons_fits ls hl h2] at hc
        refine ih _ ?_ c hc
        by_cases hbe : buf.isEmpty
        · rw [if_pos hbe]; simp only [if_pos hbe] at h2; omega
        · rw [if_neg hbe]
          simp only [if_neg hbe] at h2
          simp only [List.length_append, List.length_cons]
          omega

-- ---------------------------------------------------------------------
-- nonsp flattening through the chunk loop
-- ---------------------------------------------------------------------

theorem nonspCat_append (a b : List (List Char)) :
    nonspCat (a ++ b) = nonspCat a ++ nonspCat b := by
  induction a with
  | nil => rfl
  | cons x xs ih => simp [nonspCat, List.foldr_cons] at ih ⊢; simp [ih]

theorem nonspCat_cons (x : List Char) (xs : List (List Char)) :
    nonspCat (x :: xs) = nonsp x ++ nonspCat xs := rfl

theorem nonspCat_join (ls : List (List Char)) : nonspCat ls = nonsp ls.join := by
  induction ls with
  | nil => rfl
  | cons x xs ih =>
    rw [nonspCat_cons, ih, show (x :: xs).join = x ++ xs.join from rfl, nonsp_append]

theorem nonsp_cons_space {c : Char} (h : pySpace c = true) (t : List Char) :
    nonsp (c :: t) = nonsp t := by
  unfold nonsp
  rw [List.filter_cons]
  simp [h]

theorem nonsp_cons_keep {c : Char} (h : pySpace c = false) (t : List Char) :
    nonsp (c :: t) = c :: nonsp t := by
  unfold nonsp
  rw [List.filter_cons]
  simp [h]

theorem splitLines_ne_nil {t : List Char} (h : t ≠ []) : splitLines t ≠ [] := by
  cases t with
  | nil => exact absurd rfl h
  | cons d s =>
    rw [splitLines]
    by_cases hd : (d == '\n') = true
    · rw [if_pos hd]; simp
    · rw [if_neg hd]
      cases hsp : splitLines s <;> simp [consFirst]

theorem nonspCat_splitLines (t : List Char) : nonspCat (splitLines t) = nonsp t := by
  induction t with
  | nil => rfl
  | cons c rest ih =>
    by_cases hc : (c == '\n') = true
    · have hc2 : c = '\n' := by simpa using hc
      rw [splitLines, if_pos hc, nonspCat_cons, ih, hc2,
        nonsp_cons_space (show pySpace '\n' = true from rfl)]
      rfl
    · rw [splitLines, if_neg hc]
      cases hr : splitLines rest with
      | nil =>
        have hrest : rest = [] := by
          by_cases h0 : rest = []
          · exact h0
          · exact absurd hr (splitLines_ne_nil h0)
        subst hrest
        simp [consFirst, nonspCat_cons, nonspCat]
      | cons h0 tl =>
        rw [hr] at ih
        rw [consFirst, nonspCat_cons]
        rw [nonspCat_cons] at ih
        by_cases hcs : pySpace c = true
        · rw [nonsp_cons_space hcs, nonsp_cons_space hcs]
          exact ih
        · rw [nonsp_cons_keep (by simpa using hcs), nonsp_cons_keep (by simpa using hcs),
            ← ih]
          simp

theorem nonspCat_flush (buf : List Char) :
    nonspCat (if buf.isEmpty then [] else [buf]) = nonsp buf := by
  by_cases hbe : buf.isEmpty
  · have hb : buf = [] := by simpa [List.isEmpty_iff] using hbe
    subst hb; rfl
  · rw [if_neg hbe, nonspCat_cons]
    simp [nonspCat]

-- dropping the whitespace-only source lines does not change the chunking
theorem chunkGo_filter_blank (size : Nat) :
    ∀ lines : List (List Char), ∀ buf : List Char,
      chunkGo size (lines.filter (fun l => !(pyStrip l).isEmpty)) buf = chunkGo size lines buf := by
  intro lines
  induction lines with
  | nil => intro buf; rfl
  | cons l ls ih =>
    intro buf
    by_cases hl : pyStrip l = []
    · rw [List.filter_cons, if_neg (by simp [hl]), chunkGo_cons_blank size ls buf hl]
      exact ih buf
    · rw [List.filter_cons, if_pos (by simp [List.isEmpty_iff, hl])]
      by_cases h2 : size < buf.length + ((pyStrip l).length + (if buf.isEmpty then 0 else 1))
      · by_cases h3 : size < (pyStrip l).length
        · rw [chunkGo_cons_over_long ls hl h2 h3,
            chunkGo_cons_over_long (ls.filter (fun l => !(pyStrip l).isEmpty)) hl h2 h3, ih]
        · rw [chunkGo_cons_over_short ls hl h2 h3,
            chunkGo_cons_over_short (ls.filter (fun l => !(pyStrip l).isEmpty)) hl h2 h3, ih]
      · rw [chunkGo_cons_fits ls hl h2,
          chunkGo_cons_fits (ls.filter (fun l => !(pyStrip l).isEmpty)) hl h2, ih]

-- flattened non-whitespace content is preserved by the chunk loop
theorem chunkGo_nonspCat {size : Nat} (hs : 1 ≤ size) :
    ∀ lines : List (List Char), ∀ buf : List Char,
      nonspCat (chunkGo size lines buf) = nonsp buf ++ nonspCat lines := by
  intro lines
  induction lines with
  | nil =>
    intro buf
    rw [chunkGo_nil, nonspCat_flush]
    simp [nonspCat]
  | cons l ls ih =>
    intro buf
    rw [nonspCat_cons]
    have hnl : nonsp (pyStrip l) = nonsp l := nonsp_pyStrip l
    by_cases hl : pyStrip l = []
    · rw [chunkGo_cons_blank size ls buf hl, ih buf, nonsp_nil_of_strip_nil hl]
      simp
    · by_cases h2 : size < buf.length + ((pyStrip l).length + (if buf.isEmpty then 0 else 1))
      · by_cases h3 : size < (pyStrip l).length
        · have hhs : nonspCat (hardSplit size (pyStrip l)) = nonsp (pyStrip l) := by
            rw [nonspCat_join, hardSplit_join hs]
          rw [chunkGo_cons_over_long ls hl h2 h3, nonspCat_append, nonspCat_append,
            ih [], hhs, hnl, nonspCat_flush]
          simp [show nonsp ([] : List Char) = [] from rfl]
        · rw [chunkGo_cons_over_short ls hl h2 h3, nonspCat_append, ih (pyStrip l),
            hnl, nonspCat_flush]
      · rw [chunkGo_cons_fits ls hl h2]
        by_cases hbe : buf.isEmpty
        · have hb : buf = [] := by simpa [List.isEmpty_iff] using hbe
          subst hb
          rw [show (if ([] : List Char).isEmpty = true then pyStrip l else [] ++ '\n' :: pyStrip l) = pyStrip l from rfl,
            ih (pyStrip l), hnl]
          simp [nonsp]
        · rw [if_neg hbe, ih (buf ++ '\n' :: pyStrip l), nonsp_append,
            nonsp_cons_space (show pySpace '\n' = true from rfl), hnl]
          simp

-- ---------------------------------------------------------------------
-- joinNL reconstruction through the chunk loop
-- ---------------------------------------------------------------------

theorem joinNL_cons_ne (a : List Char) {K : List (List Char)} (h : K ≠ []) :
    joinNL (a :: K) = a ++ '\n' :: joinNL K := by
  cases K with
  | nil => exact absurd rfl h
  | cons k ks => rfl

theorem joinNL_merge (a b : List Char) (K : List (List Char)) :
    joinNL ((a ++ '\n' :: b) :: K) = joinNL (a :: b :: K) := by
  cases K with
  | nil => rfl
  | cons k ks =>
    rw [joinNL_cons_ne (a ++ '\n' :: b) (by simp), joinNL_cons_ne a (by simp),
      joinNL_cons_ne b (by simp)]
    simp

-- when no line overflows, every chunk is a stripped non-empty string of
-- length at most `size`
theorem chunkGo_mem_good {size : Nat} :
    ∀ lines : List (List Char), ∀ buf : List Char,
      pyStrip buf = buf → buf.length ≤ size →
      (∀ l ∈ lines, (pyStrip l).length ≤ size) →
      ∀ c ∈ chunkGo size lines buf, pyStrip c = c ∧ c ≠ [] ∧ c.length ≤ size := by
  intro lines
  induction lines with
  | nil =>
    intro buf hstr hlen _ c hc
    rw [chunkGo_nil] at hc
    by_cases hbe : buf.isEmpty
    · rw [if_pos hbe] at hc; simp at hc
    · rw [if_neg hbe] at hc
      simp only [List.mem_singleton] at hc
      subst hc
      exact ⟨hstr, by simpa [List.isEmpty_iff] using hbe, hlen⟩
  | cons l ls ih =>
    intro buf hstr hlen hall c hc
    have hhd : (pyStrip l).length ≤ size := hall l (by simp)
    have htl : ∀ x ∈ ls, (pyStrip x).length ≤ size := fun x hx => hall x (by simp [hx])
    by_cases hl : pyStrip l = []
    · rw [chunkGo_cons_blank size ls buf hl] at hc
      exact ih buf hstr hlen htl c hc
    · by_cases h2 : size < buf.length + ((pyStrip l).length + (if buf.isEmpty then 0 else 1))
      · have hbne : buf ≠ [] := by
          intro hb
          subst hb
          simp at h2
          omega
        have h3 : ¬size < (pyStrip l).length := by omega
        rw [chunkGo_cons_over_short ls hl h2 h3,
          if_neg (isEmpty_false_of_ne hbne ▸ by simp [isEmpty_false_of_ne hbne])] at hc
        rcases List.mem_append.mp hc with hc | hc
        · simp only [List.mem_singleton] at hc
          subst hc
          exact ⟨hstr, hbne, hlen⟩
        · exact ih (pyStrip l) (pyStrip_idem l) (by omega) htl c hc
      · rw [chunkGo_cons_fits ls hl h2] at hc
        by_cases hbe : buf.isEmpty
        · have hb : buf = [] := by simpa [List.isEmpty_iff] using hbe
          subst hb
          rw [if_pos hbe] at hc
          simp at h2
          exact ih (pyStrip l) (pyStrip_idem l) (by omega) htl c hc
        · rw [if_neg hbe] at hc
          have hbne : buf ≠ [] := by simpa [List.isEmpty_iff] using hbe
          simp only [if_neg hbe] at h2
          refine ih (buf ++ '\n' :: pyStrip l)
            (pyStrip_append_mid hstr (pyStrip_idem l) hbne hl) ?_ htl c hc
          simp only [List.length_append, List.length_cons]
          omega

-- the chunks join with newlines back to the kept lines joined with newlines
theorem chunkGo_joinNL {size : Nat} :
    ∀ lines : List (List Char), ∀ buf : List Char,
      pyStrip buf = buf → buf.length ≤ size →
      (∀ l ∈ lines, (pyStrip l).length ≤ size) →
      joinNL (chunkGo size lines buf) =
        (if buf.isEmpty then joinNL ((lines.map pyStrip).filter (fun x => !x.isEmpty))
         else joinNL (buf :: (lines.map pyStrip).filter (fun x => !x.isEmpty))) := by
  intro lines
  induction lines with
  | nil =>
    intro buf _ _ _
    rw [chunkGo_nil]
    by_cases hbe : buf.isEmpty
    · rw [if_pos hbe, if_pos hbe]; rfl
    · rw [if_neg hbe, if_neg hbe]; rfl
  | cons l ls ih =>
    intro buf hstr hlen hall
    have hhd : (pyStrip l).length ≤ size := hall l (by simp)
    have htl : ∀ x ∈ ls, (pyStrip x).length ≤ size := fun x hx => hall x (by simp [hx])
    by_cases hl : pyStrip l = []
    · have hdrop : List.filter (fun x => !x.isEmpty) (List.map pyStrip (l :: ls)) =
          List.filter (fun x => !x.isEmpty) (List.map pyStrip ls) := by
        rw [List.map_cons, List.filter_cons, hl]
        simp
      rw [chunkGo_cons_blank size ls buf hl, ih buf hstr hlen htl, hdrop]
    · have hkeep : (!(pyStrip l).isEmpty) = true := by
        simp [List.isEmpty_iff, hl]
      by_cases h2 : size < buf.length + ((pyStrip l).length + (if buf.isEmpty then 0 else 1))
      · have hbne : buf ≠ [] := by
          intro hb
          subst hb
          simp at h2
          omega
        have hbe : buf.isEmpty = false := isEmpty_false_of_ne hbne
        have h3 : ¬size < (pyStrip l).length := by omega
        rw [chunkGo_cons_over_short ls hl h2 h3, if_neg (by simp [hbe])]
        have hrest : chunkGo size ls (pyStrip l) ≠ [] := chunkGo_ne_nil ls (pyStrip l) hl
        rw [show ([buf] ++ chunkGo size ls (pyStrip l)) = buf :: chunkGo size ls (pyStrip l) from rfl,
          joinNL_cons_ne buf hrest,
          ih (pyStrip l) (pyStrip_idem l) (by omega) htl,
          if_neg (by simp [List.isEmpty_iff, hl]),
          List.map_cons, List.filter_cons, if_pos hkeep,
          if_neg (by simp [hbe]),
          joinNL_cons_ne buf (by simp)]
      · rw [chunkGo_cons_fits ls hl h2, List.map_cons, List.filter_cons, if_pos hkeep]
        by_cases hbe : buf.isEmpty
        · have hb : buf = [] := by simpa [List.isEmpty_iff] using hbe
          subst hb
          simp only [List.isEmpty_nil, reduceIte]
          rw [ih (pyStrip l) (pyStrip_idem l) hhd htl,
            if_neg (by simp [List.isEmpty_iff, hl])]
        · have hbne : buf ≠ [] := by simpa [List.isEmpty_iff] using hbe
          rw [if_neg hbe, if_neg hbe]
          simp only [if_neg hbe] at h2
          rw [ih (buf ++ '\n' :: pyStrip l)
              (pyStrip_append_mid hstr (pyStrip_idem l) hbne hl)
              (by simp only [List.length_append, List.length_cons]; omega) htl,
            if_neg (by simp),
            joinNL_merge]

theorem filterMap_eq_self {α : Type} {f : α → Option α} :
    ∀ l : List α, (∀ c ∈ l, f c = some c) → l.filterMap f = l := by
  intro l
  induction l with
  | nil => intro _; rfl
  | cons x xs ih =>
    intro h
    rw [List.filterMap_cons, h x (List.mem_cons_self x xs),
      ih (fun c hc => h c (List.mem_cons_of_mem x hc))]

-- ---------------------------------------------------------------------
-- hardSplit counting lemmas and chunk_text characterizations
-- ---------------------------------------------------------------------

theorem hardSplitGo_ne_nil {size : Nat} (fuel : Nat) (l : List Char) (hl : l ≠ []) :
    hardSplitGo size fuel l ≠ [] := by
  cases fuel with
  | zero => simp [hardSplitGo, isEmpty_false_of_ne hl]
  | succ n => simp [hardSplitGo, isEmpty_false_of_ne hl]

theorem hardSplitGo_length {size : Nat} (hs : 1 ≤ size) :
    ∀ fuel l, l.length ≤ fuel →
      (hardSplitGo size fuel l).length = (l.length + size - 1) / size := by
  intro fuel
  induction fuel with
  | zero =>
    intro l h
    have hl : l = [] := List.length_eq_zero.mp (Nat.le_antisymm h (Nat.zero_le _))
    subst hl
    have h0 : (0 + size - 1) / size = 0 := Nat.div_eq_of_lt (by omega)
    simp only [hardSplitGo, List.isEmpty_nil, reduceIte, List.length_nil, h0]
  | succ n ih =>
    intro l h
    by_cases hl : l = []
    · subst hl
      have h0 : (0 + size - 1) / size = 0 := Nat.div_eq_of_lt (by omega)
      simp only [hardSplitGo, List.isEmpty_nil, reduceIte, List.length_nil, h0]
    · have hne : l.isEmpty = false := isEmpty_false_of_ne hl
      have hlen : 0 < l.length := List.length_pos.mpr hl
      have hdrop : (l.drop size).length ≤ n := by rw [List.length_drop]; omega
      simp only [hardSplitGo, hne, Bool.false_eq_true, if_false, List.length_cons,
        ih (l.drop size) hdrop, List.length_drop]
      rcases Nat.lt_or_ge size l.length with hc | hc
      · have e1 : l.length - size + size - 1 = l.length - size - 1 + size := by omega
        have e2 : l.length + size - 1 = l.length - 1 + size := by omega
        have e3 : l.length - 1 = l.length - size - 1 + size := by omega
        rw [e1, e2, Nat.add_div_right _ (by omega), Nat.add_div_right _ (by omega), e3,
          Nat.add_div_right _ (by omega)]
      · have e0 : l.length - size = 0 := by omega
        have h0 : (0 + size - 1) / size = 0 := Nat.div_eq_of_lt (by omega)
        have e2 : l.length + size - 1 = l.length - 1 + size := by omega
        rw [e0, h0, e2, Nat.add_div_right _ (by omega), Nat.div_eq_of_lt (by omega)]

theorem hardSplitGo_dropLast {size : Nat} (hs : 1 ≤ size) :
    ∀ fuel l, l.length ≤ fuel →
      ∀ c ∈ (hardSplitGo size fuel l).dropLast, c.length = size := by
  intro fuel
  induction fuel with
  | zero =>
    intro l h c hc
    have hl : l = [] := List.length_eq_zero.mp (Nat.le_antisymm h (Nat.zero_le _))
    subst hl
    simp [hardSplitGo] at hc
  | succ n ih =>
    intro l h c hc
    by_cases hl : l = []
    · subst hl; simp [hardSplitGo] at hc
    · have hne : l.isEmpty = false := isEmpty_false_of_ne hl
      simp only [hardSplitGo, hne, Bool.false_eq_true, if_false] at hc
      by_cases hd : l.drop size = []
      · rw [hd, hardSplitGo_nil] at hc
        simp at hc
      · have hlong : size < l.length := by
          have := List.length_pos.mpr hd
          rw [List.length_drop] at this
          omega
        rcases hr : hardSplitGo size n (l.drop size) with _ | ⟨r0, rs⟩
        · exact absurd hr (hardSplitGo_ne_nil n _ hd)
        · rw [hr] at hc
          rw [show (l.take size :: r0 :: rs).dropLast = l.take size :: (r0 :: rs).dropLast from rfl] at hc
          rcases List.mem_cons.mp hc with hc | hc
          · subst hc
            rw [List.length_take]
            omega
          · have hdrop : (l.drop size).length ≤ n := by rw [List.length_drop]; omega
            exact ih (l.drop size) hdrop c (by rw [hr]; exact hc)

theorem hardSplitGo_chars {size : Nat} :
    ∀ fuel (l : List Char), ∀ c ∈ hardSplitGo size fuel l, ∀ ch ∈ c, ch ∈ l := by
  intro fuel
  induction fuel with
  | zero =>
    intro l c hc ch hch
    by_cases hl : l = []
    · subst hl; simp [hardSplitGo] at hc
    · simp only [hardSplitGo, isEmpty_false_of_ne hl, Bool.false_eq_true, if_false,
        List.mem_singleton] at hc
      subst hc; exact hch
  | succ n ih =>
    intro l c hc ch hch
    by_cases hl : l = []
    · subst hl; simp [hardSplitGo] at hc
    · simp only [hardSplitGo, isEmpty_false_of_ne hl, Bool.false_eq_true, if_false,
        List.mem_cons] at hc
      rcases hc with hc | hc
      · subst hc; exact List.mem_of_mem_take hch
      · exact List.mem_of_mem_drop (ih (l.drop size) c hc ch hch)

theorem dropWhile_nospace {p : Char → Bool} {l : List Char} (h : ∀ c ∈ l, p c = false) :
    l.dropWhile p = l := by
  cases l with
  | nil => rfl
  | cons c t =>
    rw [List.dropWhile_cons, h c (List.mem_cons_self c t)]
    simp

theorem strip_id_of_nospace {l : List Char} (h : ∀ c ∈ l, pySpace c = false) :
    pyStrip l = l := by
  apply pyStrip_eq_self_of
  · exact dropWhile_nospace h
  · unfold rstrip
    rw [dropWhile_nospace (fun c hc => h c (List.mem_reverse.mp hc)), List.reverse_reverse]

-- every chunk chunk_text returns is the size-clamped strip of some string
-- with a non-empty strip
theorem chunk_text_mem (txt : List Char) (size : Nat) :
    ∀ c ∈ chunk_text txt size, ∃ c0, pyStrip c0 ≠ [] ∧ c = (pyStrip c0).take size := by
  intro c hc
  unfold chunk_text at hc
  by_cases ht : (normalize_text txt).isEmpty
  · rw [if_pos ht] at hc; simp at hc
  · rw [if_neg ht] at hc
    obtain ⟨c0, _, hf⟩ := List.mem_filterMap.mp hc
    by_cases h0 : (pyStrip c0).isEmpty
    · simp only [h0, reduceIte] at hf
      exact absurd hf (by simp)
    · refine ⟨c0, by simpa [List.isEmpty_iff] using h0, ?_⟩
      simp only [h0, Bool.false_eq_true, if_false, Option.some.injEq] at hf
      exact hf.symm

theorem pyStrip_take_head {c0 : List Char} (h : pyStrip c0 ≠ []) {size : Nat}
    (hs : 1 ≤ size) :
    ∃ d t, (pyStrip c0).take size = d :: t ∧ pySpace d = false := by
  rcases hd : pyStrip c0 with _ | ⟨d, t⟩
  · exact absurd hd h
  · have hdf : pySpace d = false := by
      have h2 := pyStrip_ldrop c0
      rw [hd] at h2
      exact dropWhile_eq_self_head_false h2
    rcases size with _ | n
    · omega
    · exact ⟨d, t.take n, by rw [List.take_succ_cons], hdf⟩

-- C4 core: a single all-non-whitespace over-long line is exactly hard-split
theorem chunk_text_single_long {txt l : List Char} {size : Nat} (hs : 1 ≤ size)
    (hsplit : splitLines (normalize_text txt) = [l])
    (hnosp : ∀ c ∈ l, pySpace c = false)
    (hlong : size < l.length) :
    chunk_text txt size = hardSplit size l := by
  have hstr : pyStrip l = l := strip_id_of_nospace hnosp
  have hlne : l ≠ [] := by
    intro h0
    rw [h0] at hlong
    simp at hlong
  have htne : ¬(normalize_text txt).isEmpty = true := by
    intro h0
    have he : normalize_text txt = [] := by simpa [List.isEmpty_iff] using h0
    rw [he] at hsplit
    simp [splitLines] at hsplit
  unfold chunk_text
  rw [if_neg htne, hsplit]
  rw [@chunkGo_cons_over_long size l [] [] (by rw [hstr]; exact hlne)
    (by simp only [List.isEmpty_nil, reduceIte, List.length_nil, Nat.zero_add, hstr]; omega)
    (by rw [hstr]; exact hlong)]
  rw [hstr]
  simp only [List.isEmpty_nil, reduceIte, chunkGo_nil, List.append_nil, List.nil_append]
  apply filterMap_eq_self
  intro c hc
  have hlenc : c.length ≤ size := hardSplitGo_mem_length hs _ _ le_rfl c hc
  have hne2 : c ≠ [] := hardSplitGo_mem_ne hs _ _ c hc
  have hcstr : pyStrip c = c :=
    strip_id_of_nospace (fun ch hch => hnosp ch (hardSplitGo_chars _ _ c hc ch hch))
  simp only [hcstr, isEmpty_false_of_ne hne2, Bool.false_eq_true, if_false,
    List.take_of_length_le hlenc]

-- C8 core: when every kept line fits the bound, joining the chunks with
-- newlines reproduces joining the kept lines of the normalized input
theorem chunk_text_joinNL (txt : List Char) (size : Nat) (hs : 1 ≤ size)
    (hl : ∀ l ∈ goodLines txt, l.length ≤ size) :
    joinNL (chunk_text txt size) = joinNL (goodLines txt) := by
  have hl2 : ∀ l ∈ splitLines (normalize_text txt), (pyStrip l).length ≤ size := by
    intro l hml
    by_cases h0 : pyStrip l = []
    · rw [h0]; exact Nat.le_trans (Nat.zero_le 1) hs
    · apply hl
      unfold goodLines
      rw [List.mem_filter]
      exact ⟨List.mem_map.mpr ⟨l, hml, rfl⟩, by simpa [List.isEmpty_iff] using h0⟩
  unfold chunk_text
  by_cases ht : (normalize_text txt).isEmpty
  · rw [if_pos ht]
    have he : normalize_text txt = [] := by simpa [List.isEmpty_iff] using ht
    unfold goodLines
    rw [he]
    rfl
  · rw [if_neg ht]
    have hgood := @chunkGo_mem_good size (splitLines (normalize_text txt)) []
      rfl (Nat.zero_le _) hl2
    rw [filterMap_eq_self _ (fun c hc => by
      obtain ⟨hstr, hne, hlen⟩ := hgood c hc
      simp only [hstr, isEmpty_false_of_ne hne, Bool.false_eq_true, if_false,
        List.take_of_length_le hlen])]
    rw [chunkGo_joinNL (splitLines (normalize_text txt)) [] rfl (Nat.zero_le _) hl2]
    simp only [List.isEmpty_nil, reduceIte]
    rfl

-- ---------------------------------------------------------------------
-- normalize_text never lengthens a string
-- ---------------------------------------------------------------------

theorem hashMatch_lt {l r : List Char} {b : Bool} (h : hashMatch l = some (r, b)) :
    r.length < l.length := by
  unfold hashMatch at h
  rcases hd : l.dropWhile pySpace with _ | ⟨c, t⟩
  · rw [hd] at h; simp at h
  · rw [hd] at h
    by_cases hc : (c == '#') = true
    · simp only [hc, if_true, Option.some.injEq, Prod.mk.injEq] at h
      have hr : r = ((c :: t).dropWhile (fun x => x == '#')).dropWhile pySpace := h.1.symm
      have hc2 : c = '#' := by simpa using hc
      have h1 : ((c :: t).dropWhile (fun x => x == '#')) = t.dropWhile (fun x => x == '#') := by
        rw [List.dropWhile_cons, if_pos (by simpa using hc2)]
      have h2 : r.length ≤ t.length := by
        rw [hr, h1]
        exact Nat.le_trans (length_dropWhile_le _ _) (length_dropWhile_le _ _)
      have h3 : (c :: t).length ≤ l.length := by
        rw [← hd]; exact length_dropWhile_le _ _
      simp only [List.length_cons] at h3
      omega
    · simp only [hc, Bool.false_eq_true, if_false] at h
      exact absurd h (by simp)

theorem bulletMatch_lt {l r : List Char} {b : Bool} (h : bulletMatch l = some (r, b)) :
    r.length < l.length := by
  unfold bulletMatch at h
  cases l with
  | nil => simp at h
  | cons c t =>
    by_cases hc : (c == '-' || c == '*' || c == '•') = true
    · simp only [hc, if_true, Option.some.injEq, Prod.mk.injEq] at h
      have hr : r = t.dropWhile pySpace := h.1.symm
      have h2 := length_dropWhile_le pySpace t
      rw [hr]
      simp only [List.length_cons]
      omega
    · simp only [hc, Bool.false_eq_true, if_false] at h
      exact absurd h (by simp)

theorem headingSubGo_length_le : ∀ fuel (b : Bool) (l : List Char),
    (headingSubGo fuel b l).length ≤ l.length := by
  intro fuel
  induction fuel with
  | zero => intro b l; exact le_rfl
  | succ n ih =>
    intro b l
    cases l with
    | nil => cases b <;> simp [headingSubGo]
    | cons c rest =>
      cases b with
      | false =>
        simp only [headingSubGo, Bool.false_eq_true, if_false, List.length_cons]
        exact Nat.succ_le_succ (ih _ rest)
      | true =>
        simp only [headingSubGo, if_true]
        rcases hm : hashMatch (c :: rest) with _ | ⟨r, nl⟩
        · simp only [List.length_cons]
          exact Nat.succ_le_succ (ih _ rest)
        · have hlt := hashMatch_lt hm
          have := ih nl r
          simp only [List.length_cons] at hlt ⊢
          omega

theorem bulletSubGo_length_le : ∀ fuel (b : Bool) (l : List Char),
    (bulletSubGo fuel b l).length ≤ l.length := by
  intro fuel
  induction fuel with
  | zero => intro b l; exact le_rfl
  | succ n ih =>
    intro b l
    cases l with
    | nil => cases b <;> simp [bulletSubGo]
    | cons c rest =>
      cases b with
      | false =>
        simp only [bulletSubGo, Bool.false_eq_true, if_false, List.length_cons]
        exact Nat.succ_le_succ (ih _ rest)
      | true =>
        simp only [bulletSubGo, if_true]
        rcases hm : bulletMatch (c :: rest) with _ | ⟨r, nl⟩
        · simp only [List.length_cons]
          exact Nat.succ_le_succ (ih _ rest)
        · have hlt := bulletMatch_lt hm
          have := ih nl r
          simp only [List.length_cons] at hlt ⊢
          omega

theorem spaceCompressGo_length_le : ∀ fuel (l : List Char),
    (spaceCompressGo fuel l).length ≤ l.length := by
  intro fuel
  induction fuel with
  | zero => intro l; exact le_rfl
  | succ n ih =>
    intro l
    cases l with
    | nil => simp [spaceCompressGo]
    | cons c rest =>
      by_cases hc : isST c = true
      · cases rest with
        | nil => simp [spaceCompressGo, hc]
        | cons d s =>
          by_cases hd : isST d = true
          · simp only [spaceCompressGo, hc, if_true, hd, List.length_cons]
            have h1 := ih ((d :: s).dropWhile isST)
            have h2 := length_dropWhile_le isST (d :: s)
            simp only [List.length_cons] at h2
            omega
          · simp only [spaceCompressGo, hc, if_true, hd, Bool.false_eq_true, if_false,
              List.length_cons]
            exact Nat.succ_le_succ (ih (d :: s))
      · simp only [spaceCompressGo, hc, Bool.false_eq_true, if_false, List.length_cons]
        exact Nat.succ_le_succ (ih rest)

theorem normalize_length_le (s : List Char) : (normalize_text s).length ≤ s.length := by
  unfold normalize_text headingSub bulletSub spaceCompress
  refine Nat.le_trans (pyStrip_length_le _) (Nat.le_trans (spaceCompressGo_length_le _ _) ?_)
  refine Nat.le_trans (bulletSubGo_length_le _ _ _) ?_
  refine Nat.le_trans (headingSubGo_length_le _ _ _) ?_
  exact List.length_filter_le _ s

-- ---------------------------------------------------------------------
-- clean_embed never increases the size
-- ---------------------------------------------------------------------

theorem clean_embed_title (e : Embed) :
    (clean_embed e).title = cleanOpt DISCORD_MAX_TITLE e.title := rfl

theorem clean_embed_description (e : Embed) :
    (clean_embed e).description = cleanOpt DISCORD_MAX_DESC e.description := rfl

theorem clean_embed_fields (e : Embed) : (clean_embed e).fields = cleanFields e.fields := rfl

theorem clean_embed_footer (e : Embed) : (clean_embed e).footer = e.footer := rfl

theorem olen_cleanOpt_le (n : Nat) (o : Option (List Char)) : olen (cleanOpt n o) ≤ olen o := by
  cases o with
  | none => exact le_rfl
  | some t =>
    unfold cleanOpt olen
    by_cases h : (pyStrip t).isEmpty
    · simp only [h, reduceIte]
      exact Nat.zero_le _
    · simp only [h, Bool.false_eq_true, if_false]
      rw [List.length_take]
      have := pyStrip_length_le t
      omega

theorem olen_cleanOpt_le_bound (n : Nat) (o : Option (List Char)) : olen (cleanOpt n o) ≤ n := by
  cases o with
  | none => exact Nat.zero_le _
  | some t =>
    unfold cleanOpt olen
    by_cases h : (pyStrip t).isEmpty
    · simp only [h, reduceIte]
      exact Nat.zero_le _
    · simp only [h, Bool.false_eq_true, if_false]
      rw [List.length_take]
      omega

theorem softValue_length_le (v : List Char) : (softValue v).length ≤ v.length := by
  unfold softValue
  by_cases h : FIELD_SOFT_MAX < v.length
  · rw [if_pos h, List.length_take, List.length_append, List.length_take]
    unfold FIELD_SOFT_MAX FIELD_HARD_MAX at *
    simp only [List.length_cons, List.length_nil]
    omega
  · rw [if_neg h, List.length_take]
    omega

theorem cleanField_size_le {f f2 : EField} (h : cleanField f = some f2) :
    f2.name.length + f2.value.length ≤ f.name.length + f.value.length := by
  unfold cleanField at h
  by_cases hc : ((normalize_text f.name).isEmpty || (normalize_text f.value).isEmpty) = true
  · simp only [hc, if_true] at h
    exact absurd h (by simp)
  · simp only [hc, Bool.false_eq_true, if_false, Option.some.injEq] at h
    subst h
    simp only
    have h1 : ((normalize_text f.name).take 256).length ≤ f.name.length := by
      rw [List.length_take]
      have := normalize_length_le f.name
      omega
    have h2 : (softValue (normalize_text f.value)).length ≤ f.value.length :=
      Nat.le_trans (softValue_length_le _) (normalize_length_le f.value)
    omega

theorem fieldsSum_cons (f : EField) (fs : List EField) :
    fieldsSum (f :: fs) = f.name.length + f.value.length + fieldsSum fs := rfl

theorem fieldsSum_filterMap_clean_le (fs : List EField) :
    fieldsSum (fs.filterMap cleanField) ≤ fieldsSum fs := by
  induction fs with
  | nil => exact le_rfl
  | cons f fs ih =>
    rw [fieldsSum_cons]
    rcases hf : cleanField f with _ | ⟨f2⟩
    · rw [List.filterMap_cons_none hf]
      omega
    · rw [List.filterMap_cons_some hf, fieldsSum_cons]
      have := cleanField_size_le hf
      omega

theorem fieldsSum_cleanFields_le (o : Option (List EField)) :
    fieldsSum ((cleanFields o).getD []) ≤ fieldsSum (o.getD []) := by
  cases o with
  | none => exact le_rfl
  | some fs =>
    unfold cleanFields
    by_cases h : (fs.filterMap cleanField).isEmpty = true
    · simp only [h, if_true]
      exact Nat.zero_le _
    · simp only [h, Bool.false_eq_true, if_false, Option.getD_some]
      exact fieldsSum_filterMap_clean_le fs

theorem embed_size_clean_le (e : Embed) : embed_size (clean_embed e) ≤ embed_size e := by
  unfold embed_size
  rw [clean_embed_title, clean_embed_description, clean_embed_fields, clean_embed_footer]
  have h1 := olen_cleanOpt_le DISCORD_MAX_TITLE e.title
  have h2 := olen_cleanOpt_le DISCORD_MAX_DESC e.description
  have h3 := fieldsSum_cleanFields_le e.fields
  omega

theorem descLen_clean_le (e : Embed) : descLen (clean_embed e) ≤ descLen e := by
  unfold descLen
  rw [clean_embed_description]
  exact olen_cleanOpt_le _ _

theorem descLen_clean_bound (e : Embed) : descLen (clean_embed e) ≤ DISCORD_MAX_DESC := by
  unfold descLen
  rw [clean_embed_description]
  exact olen_cleanOpt_le_bound _ _

-- ---------------------------------------------------------------------
-- tier steps never increase the size
-- ---------------------------------------------------------------------

theorem embed_size_set_desc (e : Embed) (d : Option (List Char)) :
    embed_size { e with description := d } =
      olen e.title + olen d + fieldsSum (e.fields.getD []) + olen e.footer := rfl

theorem embed_size_set_fields (e : Embed) (fs : Option (List EField)) :
    embed_size { e with fields := fs } =
      olen e.title + olen e.description + fieldsSum (fs.getD []) + olen e.footer := rfl

theorem descLen_set_fields (e : Embed) (fs : Option (List EField)) :
    descLen { e with fields := fs } = descLen e := rfl

theorem tier1Field_size_le {e e2 : Embed} (h : tier1Field e = some e2) :
    embed_size e2 ≤ embed_size e := by
  unfold tier1Field at h
  rcases hf : e.fields with _ | ⟨_ | ⟨f, fs⟩⟩ <;> rw [hf] at h <;> simp only [] at h
  · simp at h
  · simp at h
  · by_cases hv : 120 < f.value.length
    · rw [if_pos hv] at h
      simp only [Option.some.injEq] at h
      subst h
      refine Nat.le_trans (embed_size_clean_le _) ?_
      rw [embed_size_set_fields]
      unfold embed_size
      rw [hf]
      simp only [Option.getD_some, fieldsSum_cons]
      have hlen : (f.value.take (f.value.length - 80) ++ [ell]).length ≤ f.value.length := by
        simp only [List.length_append, List.length_take, List.length_cons, List.length_nil]
        omega
      omega
    · rw [if_neg hv] at h
      simp at h

theorem tier1Step_size_le {e e2 : Embed} (h : tier1Step e = some e2) :
    embed_size e2 ≤ embed_size e := by
  unfold tier1Step at h
  rcases hd : e.description with _ | ⟨d⟩ <;> rw [hd] at h <;> simp only [] at h
  · exact tier1Field_size_le h
  · by_cases hl : 90 < d.length
    · rw [if_pos hl] at h
      simp only [Option.some.injEq] at h
      subst h
      refine Nat.le_trans (embed_size_clean_le _) ?_
      rw [embed_size_set_desc]
      unfold embed_size
      rw [hd]
      simp only [olen]
      rw [List.length_append, List.length_take]
      simp only [List.length_cons, List.length_nil]
      omega
    · rw [if_neg hl] at h
      exact tier1Field_size_le h

theorem tier2Pop_size_le {e e2 : Embed} (h : tier2Pop e = some e2) :
    embed_size e2 ≤ embed_size e := by
  unfold tier2Pop at h
  rcases hf : e.fields with _ | ⟨_ | ⟨f, fs⟩⟩ <;> rw [hf] at h <;> simp only [] at h
  · simp at h
  · simp at h
  · simp only [Option.some.injEq] at h
    subst h
    refine Nat.le_trans (embed_size_clean_le _) ?_
    rw [embed_size_set_fields]
    unfold embed_size
    rw [hf]
    simp only [Option.getD_some, fieldsSum_cons]
    omega

theorem tier2Clear_size_le {e e2 : Embed} (h : tier2Clear e = some e2) :
    embed_size e2 ≤ embed_size e := by
  unfold tier2Clear at h
  rcases hd : e.description with _ | ⟨d⟩ <;> rw [hd] at h <;> simp only [] at h
  · exact tier2Pop_size_le h
  · by_cases hde : d.isEmpty = true
    · rw [if_pos hde] at h
      exact tier2Pop_size_le h
    · rw [if_neg hde] at h
      simp only [Option.some.injEq] at h
      subst h
      refine Nat.le_trans (embed_size_clean_le _) ?_
      rw [embed_size_set_desc]
      unfold embed_size
      rw [hd]
      simp only [olen, List.length_nil]
      omega

theorem tier2Field_size_le {e e2 : Embed} (h : tier2Field e = some e2) :
    embed_size e2 ≤ embed_size e := by
  unfold tier2Field at h
  rcases hf : e.fields with _ | ⟨_ | ⟨f, fs⟩⟩ <;> rw [hf] at h <;> simp only [] at h
  · exact tier2Clear_size_le h
  · exact tier2Clear_size_le h
  · by_cases hv : 50 < f.value.length
    · rw [if_pos hv] at h
      simp only [Option.some.injEq] at h
      subst h
      refine Nat.le_trans (embed_size_clean_le _) ?_
      rw [embed_size_set_fields]
      unfold embed_size
      rw [hf]
      simp only [Option.getD_some, fieldsSum_cons]
      have hlen : (f.value.take (f.value.length - 50) ++ [ell]).length ≤ f.value.length := by
        simp only [List.length_append, List.length_take, List.length_cons, List.length_nil]
        omega
      omega
    · rw [if_neg hv] at h
      exact tier2Clear_size_le h

theorem tier2Step_size_le {e e2 : Embed} (h : tier2Step e = some e2) :
    embed_size e2 ≤ embed_size e := by
  unfold tier2Step at h
  rcases hd : e.description with _ | ⟨d⟩ <;> rw [hd] at h <;> simp only [] at h
  · exact tier2Field_size_le h
  · by_cases hl : 30 < d.length
    · rw [if_pos hl] at h
      simp only [Option.some.injEq] at h
      subst h
      refine Nat.le_trans (embed_size_clean_le _) ?_
      rw [embed_size_set_desc]
      unfold embed_size
      rw [hd]
      simp only [olen]
      rw [List.length_append, List.length_take]
      simp only [List.length_cons, List.length_nil]
      omega
    · rw [if_neg hl] at h
      exact tier2Field_size_le h

theorem tier1_size_le (target : Nat) : ∀ fuel e, embed_size (tier1 target fuel e) ≤ embed_size e := by
  intro fuel
  induction fuel with
  | zero => intro e; exact le_rfl
  | succ n ih =>
    intro e
    rw [tier1]
    by_cases hc : embed_size e ≤ target
    · rw [if_pos hc]
    · rw [if_neg hc]
      rcases hstep : tier1Step e with _ | ⟨e2⟩
      · exact le_rfl
      · exact Nat.le_trans (ih e2) (tier1Step_size_le hstep)

theorem tier2_size_le : ∀ fuel e, embed_size (tier2 fuel e) ≤ embed_size e := by
  intro fuel
  induction fuel with
  | zero => intro e; exact le_rfl
  | succ n ih =>
    intro e
    rw [tier2]
    by_cases hc : embed_size e ≤ DISCORD_MAX_EMBED
    · rw [if_pos hc]
    · rw [if_neg hc]
      rcases hstep : tier2Step e with _ | ⟨e2⟩
      · exact le_rfl
      · exact Nat.le_trans (ih e2) (tier2Step_size_le hstep)

-- C10 core: the whole fit never exceeds the size of the cleaned card
theorem shrink_size_le_clean (e : Embed) (t : Nat) :
    embed_size (shrink_to_fit e t) ≤ embed_size (clean_embed e) := by
  unfold shrink_to_fit
  rcases hd : (clean_embed e).description with _ | ⟨d⟩
  · simp only [hd]
    exact Nat.le_trans (tier2_size_le _ _) (tier1_size_le _ _ _)
  · simp only [hd]
    by_cases hl : DESC_SOFT_MAX < d.length
    · rw [if_pos hl]
      refine Nat.le_trans (tier2_size_le _ _) (Nat.le_trans (tier1_size_le _ _ _) ?_)
      refine Nat.le_trans (embed_size_clean_le _) ?_
      rw [embed_size_set_desc]
      unfold embed_size
      rw [hd]
      simp only [olen]
      rw [List.length_append, List.length_take]
      simp only [List.length_cons, List.length_nil]
      unfold DESC_SOFT_MAX at hl ⊢
      omega
    · rw [if_neg hl]
      exact Nat.le_trans (tier2_size_le _ _) (tier1_size_le _ _ _)

-- ---------------------------------------------------------------------
-- description length through the shrink tiers
-- ---------------------------------------------------------------------

theorem tier1Field_desc_le {e e2 : Embed} (h : tier1Field e = some e2) :
    descLen e2 ≤ descLen e := by
  unfold tier1Field at h
  rcases hf : e.fields with _ | ⟨_ | ⟨f, fs⟩⟩ <;> rw [hf] at h <;> simp only [] at h
  · simp at h
  · simp at h
  · by_cases hv : 120 < f.value.length
    · rw [if_pos hv] at h
      simp only [Option.some.injEq] at h
      subst h
      exact Nat.le_trans (descLen_clean_le _) (le_of_eq (descLen_set_fields _ _))
    · rw [if_neg hv] at h
      simp at h

theorem tier1Step_none_desc {e : Embed} (h : tier1Step e = none) : descLen e ≤ 90 := by
  unfold tier1Step at h
  rcases hd : e.description with _ | ⟨d⟩ <;> rw [hd] at h <;> simp only [] at h
  · have h0 : descLen e = 0 := by simp [descLen, olen, hd]
    omega
  · by_cases hl : 90 < d.length
    · rw [if_pos hl] at h
      simp at h
    · rw [if_neg hl] at h
      have h0 : descLen e = d.length := by simp [descLen, olen, hd]
      omega

theorem tier1Step_desc {e e2 : Embed} (h : tier1Step e = some e2) :
    (90 < descLen e ∧ descLen e2 + 59 ≤ descLen e) ∨
      (descLen e ≤ 90 ∧ descLen e2 ≤ descLen e) := by
  unfold tier1Step at h
  rcases hd : e.description with _ | ⟨d⟩ <;> rw [hd] at h <;> simp only [] at h
  · right
    have h0 : descLen e = 0 := by simp [descLen, olen, hd]
    exact ⟨by omega, tier1Field_desc_le h⟩
  · have hde : descLen e = d.length := by simp [descLen, olen, hd]
    by_cases hl : 90 < d.length
    · rw [if_pos hl] at h
      simp only [Option.some.injEq] at h
      subst h
      left
      refine ⟨by omega, ?_⟩
      have h1 := descLen_clean_le { e with description := some (d.take (d.length - 60) ++ [ell]) }
      have h2 : descLen { e with description := some (d.take (d.length - 60) ++ [ell]) } =
          (d.take (d.length - 60) ++ [ell]).length := rfl
      rw [h2, List.length_append, List.length_take] at h1
      simp only [List.length_cons, List.length_nil] at h1
      omega
    · rw [if_neg hl] at h
      right
      exact ⟨by omega, tier1Field_desc_le h⟩

theorem tier1_fit_or_desc (target : Nat) :
    ∀ fuel e, descLen e ≤ 59 * fuel + 90 →
      embed_size (tier1 target fuel e) ≤ target ∨ descLen (tier1 target fuel e) ≤ 90 := by
  intro fuel
  induction fuel with
  | zero =>
    intro e hde
    right
    simpa using hde
  | succ n ih =>
    intro e hde
    rw [tier1]
    by_cases hc : embed_size e ≤ target
    · rw [if_pos hc]; left; exact hc
    · rw [if_neg hc]
      rcases hstep : tier1Step e with _ | ⟨e2⟩
      · right; exact tier1Step_none_desc hstep
      · refine ih e2 ?_
        rcases tier1Step_desc hstep with ⟨h1, h2⟩ | ⟨h1, h2⟩ <;> omega

theorem tier2Pop_desc_le {e e2 : Embed} (h : tier2Pop e = some e2) :
    descLen e2 ≤ descLen e := by
  unfold tier2Pop at h
  rcases hf : e.fields with _ | ⟨_ | ⟨f, fs⟩⟩ <;> rw [hf] at h <;> simp only [] at h
  · simp at h
  · simp at h
  · simp only [Option.some.injEq] at h
    subst h
    exact Nat.le_trans (descLen_clean_le _) (le_of_eq (descLen_set_fields _ _))

theorem tier2Clear_desc_le {e e2 : Embed} (h : tier2Clear e = some e2) :
    descLen e2 ≤ descLen e := by
  unfold tier2Clear at h
  rcases hd : e.description with _ | ⟨d⟩ <;> rw [hd] at h <;> simp only [] at h
  · exact tier2Pop_desc_le h
  · by_cases hde : d.isEmpty = true
    · rw [if_pos hde] at h
      exact tier2Pop_desc_le h
    · rw [if_neg hde] at h
      simp only [Option.some.injEq] at h
      subst h
      refine Nat.le_trans (descLen_clean_le _) ?_
      have h2 : descLen { e with description := some ([] : List Char) } = 0 := rfl
      rw [h2]
      omega

theorem tier2Field_desc_le {e e2 : Embed} (h : tier2Field e = some e2) :
    descLen e2 ≤ descLen e := by
  unfold tier2Field at h
  rcases hf : e.fields with _ | ⟨_ | ⟨f, fs⟩⟩ <;> rw [hf] at h <;> simp only [] at h
  · exact tier2Clear_desc_le h
  · exact tier2Clear_desc_le h
  · by_cases hv : 50 < f.value.length
    · rw [if_pos hv] at h
      simp only [Option.some.injEq] at h
      subst h
      exact Nat.le_trans (descLen_clean_le _) (le_of_eq (descLen_set_fields _ _))
    · rw [if_neg hv] at h
      exact tier2Clear_desc_le h

theorem tier2Step_desc_le90 {e e2 : Embed} (hd : descLen e ≤ 90) (h : tier2Step e = some e2) :
    descLen e2 ≤ 90 := by
  unfold tier2Step at h
  rcases hds : e.description with _ | ⟨d⟩ <;> rw [hds] at h <;> simp only [] at h
  · exact Nat.le_trans (tier2Field_desc_le h) hd
  · have hde : descLen e = d.length := by simp [descLen, olen, hds]
    by_cases hl : 30 < d.length
    · rw [if_pos hl] at h
      simp only [Option.some.injEq] at h
      subst h
      have h1 := descLen_clean_le { e with description := some (d.take (d.length - 30) ++ [ell]) }
      have h2 : descLen { e with description := some (d.take (d.length - 30) ++ [ell]) } =
          (d.take (d.length - 30) ++ [ell]).length := rfl
      rw [h2, List.length_append, List.length_take] at h1
      simp only [List.length_cons, List.length_nil] at h1
      omega
    · rw [if_neg hl] at h
      exact Nat.le_trans (tier2Field_desc_le h) hd

theorem tier2_desc_le90 : ∀ fuel e, descLen e ≤ 90 → descLen (tier2 fuel e) ≤ 90 := by
  intro fuel
  induction fuel with
  | zero => intro e hd; exact hd
  | succ n ih =>
    intro e hd
    rw [tier2]
    by_cases hc : embed_size e ≤ DISCORD_MAX_EMBED
    · rw [if_pos hc]; exact hd
    · rw [if_neg hc]
      rcases hstep : tier2Step e with _ | ⟨e2⟩
      · exact hd
      · exact ih e2 (tier2Step_desc_le90 hd hstep)

-- C1 amended core: the fit either reaches the target or has shrunk the
-- description to the tier-1 minimum (or removed it)
theorem shrink_fit_or_desc (e : Embed) (t : Nat) :
    embed_size (shrink_to_fit e t) ≤ t ∨ descLen (shrink_to_fit e t) ≤ 90 := by
  unfold shrink_to_fit
  have hmain : ∀ e2 : Embed, descLen e2 ≤ 59 * 100 + 90 →
      embed_size (tier2 100 (tier1 t 100 e2)) ≤ t ∨
        descLen (tier2 100 (tier1 t 100 e2)) ≤ 90 := by
    intro e2 hd2
    rcases tier1_fit_or_desc t 100 e2 hd2 with h1 | h1
    · left
      exact Nat.le_trans (tier2_size_le _ _) h1
    · right
      exact tier2_desc_le90 _ _ h1
  have hcb : ∀ x : Embed, descLen (clean_embed x) ≤ 59 * 100 + 90 := by
    intro x
    have := descLen_clean_bound x
    unfold DISCORD_MAX_DESC at this
    omega
  rcases hd : (clean_embed e).description with _ | ⟨d⟩
  · simp only [hd]
    exact hmain _ (hcb _)
  · simp only [hd]
    by_cases hl : DESC_SOFT_MAX < d.length
    · rw [if_pos hl]
      exact hmain _ (hcb _)
    · rw [if_neg hl]
      exact hmain _ (hcb _)

-- ---------------------------------------------------------------------
-- retry loop lemmas
-- ---------------------------------------------------------------------

theorem retrySendGo_ok {tr : Nat → Payload → Resp} {a fuel : Nat} {p : Payload}
    (h1 : (tr a p).ok = true) :
    retrySendGo tr a (fuel + 1) p = (Except.ok (), [p]) := by
  rw [retrySendGo]
  simp [h1]

theorem retrySendGo_other {tr : Nat → Payload → Resp} {a fuel : Nat} {p : Payload}
    (h1 : (tr a p).ok = false) (h2 : containsSub oversizeNeedle (tr a p).text = false) :
    retrySendGo tr a (fuel + 1) p = (Except.error SendErr.payloadErr, [p]) := by
  rw [retrySendGo]
  simp [h1, h2]

theorem retrySendGo_reject {tr : Nat → Payload → Resp} {a fuel : Nat} {p : Payload}
    (h1 : (tr a p).ok = false) (h2 : containsSub oversizeNeedle (tr a p).text = true) :
    retrySendGo tr a (fuel + 1) p =
      ((retrySendGo tr (a + 1) fuel (shrinkPayload a p)).1,
        p :: (retrySendGo tr (a + 1) fuel (shrinkPayload a p)).2) := by
  rw [retrySendGo]
  simp [h1, h2]

theorem retrySendGo_all_reject {tr : Nat → Payload → Resp}
    (h : ∀ k q, (tr k q).ok = false ∧ containsSub oversizeNeedle (tr k q).text = true) :
    ∀ fuel a p, retrySendGo tr a fuel p = (Except.error SendErr.exhausted, shrinkIter a fuel p) := by
  intro fuel
  induction fuel with
  | zero => intro a p; rfl
  | succ n ih =>
    intro a p
    rw [retrySendGo_reject (h a p).1 (h a p).2, ih (a + 1) (shrinkPayload a p)]
    rfl

-- ---------------------------------------------------------------------
-- chunk_text preserves the non-whitespace content (C2 order property)
-- ---------------------------------------------------------------------

theorem nonspCat_filterMap_stage {size : Nat} :
    ∀ chunks : List (List Char), (∀ c ∈ chunks, c.length ≤ size) →
      nonspCat (chunks.filterMap
        (fun c => let s := pyStrip c; if s.isEmpty then none else some (s.take size))) =
        nonspCat chunks := by
  intro chunks
  induction chunks with
  | nil => intro _; rfl
  | cons c cs ih =>
    intro hlen
    have htail : ∀ x ∈ cs, x.length ≤ size := fun x hx => hlen x (List.mem_cons_of_mem c hx)
    by_cases h0 : (pyStrip c).isEmpty = true
    · rw [List.filterMap_cons]
      simp only [h0, reduceIte]
      rw [ih htail, nonspCat_cons,
        nonsp_nil_of_strip_nil (by simpa [List.isEmpty_iff] using h0)]
      rfl
    · have hfc : (pyStrip c).isEmpty = false := by simpa using h0
      rw [List.filterMap_cons]
      simp only [hfc, Bool.false_eq_true, if_false]
      rw [nonspCat_cons, nonspCat_cons, ih htail,
        List.take_of_length_le (Nat.le_trans (pyStrip_length_le c) (hlen c (List.mem_cons_self c cs))),
        nonsp_pyStrip]

theorem chunk_text_nonsp (txt : List Char) (size : Nat) (hs : 1 ≤ size) :
    nonspCat (chunk_text txt size) = nonsp (normalize_text txt) := by
  unfold chunk_text
  by_cases ht : (normalize_text txt).isEmpty
  · rw [if_pos ht]
    have he : normalize_text txt = [] := by simpa [List.isEmpty_iff] using ht
    rw [he]
    rfl
  · rw [if_neg ht,
      nonspCat_filterMap_stage _ (chunkGo_mem_length hs (splitLines (normalize_text txt)) []
        (Nat.zero_le _)),
      chunkGo_nonspCat hs, nonspCat_splitLines]
    rfl

-- ---------------------------------------------------------------------
-- fixed points of _clean_embed (C7)
-- ---------------------------------------------------------------------

theorem cleanOpt_fixed {n : Nat} {t : List Char} (hstr : pyStrip t = t) (hne : t ≠ [])
    (hlen : t.length ≤ n) : cleanOpt n (some t) = some t := by
  unfold cleanOpt
  simp only [hstr, isEmpty_false_of_ne hne, Bool.false_eq_true, if_false,
    List.take_of_length_le hlen]

theorem cleanField_fixed {f : EField}
    (hn : normalize_text f.name = f.name) (hnne : f.name ≠ []) (hnlen : f.name.length ≤ 256)
    (hv : normalize_text f.value = f.value) (hvne : f.value ≠ [])
    (hvlen : f.value.length ≤ FIELD_SOFT_MAX) : cleanField f = some f := by
  unfold cleanField
  simp only [hn, hv, isEmpty_false_of_ne hnne, isEmpty_false_of_ne hvne, Bool.or_self,
    Bool.false_eq_true, if_false]
  rw [List.take_of_length_le hnlen]
  unfold softValue
  rw [if_neg (by omega), List.take_of_length_le
    (by unfold FIELD_SOFT_MAX at hvlen; unfold FIELD_HARD_MAX; omega)]

theorem clean_embed_fixed (e : Embed)
    (ht : match e.title with
      | none => True
      | some t => pyStrip t = t ∧ t ≠ [] ∧ t.length ≤ DISCORD_MAX_TITLE)
    (hd : match e.description with
      | none => True
      | some t => pyStrip t = t ∧ t ≠ [] ∧ t.length ≤ DISCORD_MAX_DESC)
    (hf : match e.fields with
      | none => True
      | some fs => fs ≠ [] ∧ ∀ f ∈ fs,
          normalize_text f.name = f.name ∧ f.name ≠ [] ∧ f.name.length ≤ 256 ∧
          normalize_text f.value = f.value ∧ f.value ≠ [] ∧
          f.value.length ≤ FIELD_SOFT_MAX) :
    clean_embed e = e := by
  have htitle : cleanOpt DISCORD_MAX_TITLE e.title = e.title := by
    rcases ho : e.title with _ | ⟨t⟩
    · rfl
    · rw [ho] at ht
      simp only [] at ht
      exact cleanOpt_fixed ht.1 ht.2.1 ht.2.2
  have hdesc : cleanOpt DISCORD_MAX_DESC e.description = e.description := by
    rcases ho : e.description with _ | ⟨t⟩
    · rfl
    · rw [ho] at hd
      simp only [] at hd
      exact cleanOpt_fixed hd.1 hd.2.1 hd.2.2
  have hfields : cleanFields e.fields = e.fields := by
    rcases ho : e.fields with _ | ⟨fs⟩
    · rfl
    · rw [ho] at hf
      simp only [] at hf
      unfold cleanFields
      simp only []
      have hmap : fs.filterMap cleanField = fs :=
        filterMap_eq_self fs (fun f hmem => by
          obtain ⟨h1, h2, h3, h4, h5, h6⟩ := hf.2 f hmem
          exact cleanField_fixed h1 h2 h3 h4 h5 h6)
      rw [hmap, if_neg (by simpa [List.isEmpty_iff] using hf.1)]
  unfold clean_embed
  rw [htitle, hdesc, hfields]

-- ---------------------------------------------------------------------
-- split_summary_links characterization (C9)
-- ---------------------------------------------------------------------

theorem split_summary_links_parts (md fb : List Char) (h1 : pyStrip md ≠ [])
    (h2 : 2 ≤ (partsOf (pyStrip md)).length) :
    (split_summary_links md fb).2.2 = pyStrip ((partsOf (pyStrip md)).getD 1 []) ∧
    (split_summary_links md fb).2.1 =
      (match titleMatch (pyStrip md) with
       | none => pyStrip ((partsOf (pyStrip md)).getD 0 [])
       | some (_, en) =>
         if en < (pyStrip md).length then pyStrip ((pyStrip md).drop en)
         else pyStrip ((partsOf (pyStrip md)).getD 0 [])) ∧
    (split_summary_links md fb).1 =
      (match titleMatch (pyStrip md) with
       | none => fb
       | some (g, _) => pyStrip g) := by
  unfold split_summary_links
  rw [if_neg (by simpa [List.isEmpty_iff] using h1)]
  rcases htm : titleMatch (pyStrip md) with _ | ⟨g, en⟩ <;> simp only [htm]
  · rw [if_pos h2, if_pos h2]
    exact ⟨rfl, rfl, trivial⟩
  · rw [if_pos h2, if_pos h2]
    by_cases hen : en < (pyStrip md).length
    · simp [hen]
    · simp [hen]

-- ---------------------------------------------------------------------
-- Claim theorems
-- ---------------------------------------------------------------------

/-- C1 counterexample: with two moderately long fields and target 100 the
fitter stops with size 174 > 100 (reaching 100 would be possible within
the hard maxima by shrinking both values), and the second field's value
(121 chars) is neither reduced to the tier-1 minimum working length (120)
nor emptied: the soft tier only ever shrinks the first field. -/
theorem claim_C1_counterexample :
    ¬(embed_size (shrink_to_fit c1card 100) ≤ 100 ∨ fullyShrunk (shrink_to_fit c1card 100)) := by
  decide

/-- C1 (amended): for every card and target, _shrink_to_fit returns a card
whose computed size is ≤ target, or else a card whose description has been
shrunk to at most 90 characters (the tier-1 minimum working length) or
removed.  It is NOT guaranteed that every shrinkable field reaches its
minimum working length: only the first field is shrunk at each tier, and
the loops stop as soon as the size passes their threshold. -/
theorem claim_C1 (e : Embed) (target : Nat) :
    embed_size (shrink_to_fit e target) ≤ target ∨ descLen (shrink_to_fit e target) ≤ 90 :=
  shrink_fit_or_desc e target

/-- C2: for every input string and positive maxSize, every chunk returned
by chunk_text has length ≤ maxSize, is non-empty and not whitespace-only;
whitespace-only source lines are dropped (removing them from the line list
does not change the result); and the chunks carry exactly the
non-whitespace characters of the normalized source, in order. -/
theorem claim_C2 (txt : List Char) (size : Nat) (hs : 1 ≤ size) :
    (∀ c ∈ chunk_text txt size,
        c.length ≤ size ∧ c ≠ [] ∧ c.any (fun ch => !pySpace ch) = true) ∧
    chunkGo size ((splitLines (normalize_text txt)).filter (fun l => !(pyStrip l).isEmpty)) [] =
      chunkGo size (splitLines (normalize_text txt)) [] ∧
    nonspCat (chunk_text txt size) = nonsp (normalize_text txt) := by
  refine ⟨?_, chunkGo_filter_blank size _ [], chunk_text_nonsp txt size hs⟩
  intro c hc
  obtain ⟨c0, hne, hceq⟩ := chunk_text_mem txt size c hc
  obtain ⟨d, t2, hdt, hdf⟩ := pyStrip_take_head hne hs
  subst hceq
  refine ⟨?_, ?_, ?_⟩
  · rw [List.length_take]
    exact min_le_left _ _
  · rw [hdt]
    simp
  · rw [hdt]
    simp [List.any_cons, hdf]

/-- C2 witness at a concrete input and maxSize 5. -/
theorem claim_C2_witness :
    1 ≤ 5 ∧
      ((∀ c ∈ chunk_text ("hello world\nfoo".toList) 5,
          c.length ≤ 5 ∧ c ≠ [] ∧ c.any (fun ch => !pySpace ch) = true) ∧
        chunkGo 5 ((splitLines (normalize_text ("hello world\nfoo".toList))).filter
            (fun l => !(pyStrip l).isEmpty)) [] =
          chunkGo 5 (splitLines (normalize_text ("hello world\nfoo".toList))) [] ∧
        nonspCat (chunk_text ("hello world\nfoo".toList) 5) =
          nonsp (normalize_text ("hello world\nfoo".toList))) :=
  ⟨by decide, claim_C2 ("hello world\nfoo".toList) 5 (by decide)⟩

/-- C3: against a transport that always rejects with an oversize body, the
sender posts exactly maxRetries+1 = 4 payloads, each retry shrinking every
card of the previous payload with the attempt-indexed truncation limit and
re-running the fitter at target 3000 (shrinkPayload), and finally raises
the retries-exhausted error; the limit lists are strictly descending and
attempts past the end are clamped to the last entry. -/
theorem claim_C3 (tr : Nat → Payload → Resp) (p : Payload)
    (h : ∀ k q, (tr k q).ok = false ∧ containsSub oversizeNeedle (tr k q).text = true) :
    retry_shrink_and_send tr p 3 =
      (Except.error SendErr.exhausted,
        [p, shrinkPayload 0 p, shrinkPayload 1 (shrinkPayload 0 p),
          shrinkPayload 2 (shrinkPayload 1 (shrinkPayload 0 p))]) ∧
    descLimits.Pairwise (fun a b => b < a) ∧ fieldLimits.Pairwise (fun a b => b < a) ∧
    descLimits.getD (min 3 2) 0 = descLimits.getD 2 0 ∧
    fieldLimits.getD (min 3 2) 0 = fieldLimits.getD 2 0 := by
  refine ⟨?_, by decide, by decide, by decide, by decide⟩
  unfold retry_shrink_and_send
  rw [retrySendGo_all_reject h (3 + 1) 0 p]
  rfl

/-- C3 witness: the concrete always-oversize transport with an empty
payload. -/
theorem claim_C3_witness :
    retry_shrink_and_send rejectOversizeTr ⟨[]⟩ 3 =
      (Except.error SendErr.exhausted,
        [⟨[]⟩, shrinkPayload 0 ⟨[]⟩, shrinkPayload 1 (shrinkPayload 0 ⟨[]⟩),
          shrinkPayload 2 (shrinkPayload 1 (shrinkPayload 0 ⟨[]⟩))]) ∧
    descLimits.Pairwise (fun a b => b < a) ∧ fieldLimits.Pairwise (fun a b => b < a) ∧
    descLimits.getD (min 3 2) 0 = descLimits.getD 2 0 ∧
    fieldLimits.getD (min 3 2) 0 = fieldLimits.getD 2 0 :=
  claim_C3 rejectOversizeTr ⟨[]⟩
    (fun _ _ => ⟨rfl, show containsSub oversizeNeedle oversizeNeedle = true by decide⟩)

/-- C4 counterexample: the single normalized source line "a b" with
maxSize 1 yields 2 chunks instead of ceil(3/1) = 3: the all-space middle
slice is stripped to empty and filtered out, so hard-split pieces do not
always cover the line. -/
theorem claim_C4_counterexample :
    ¬((chunk_text c4txt 1).length = (c4txt.length + 1 - 1) / 1) := by
  decide

/-- C4 (amended): for a single source line with no whitespace characters
(the URL case the hard split is built for) of length L > maxSize ≥ 1,
chunk_text returns exactly the hard split: ceil(L / maxSize) chunks, each
except possibly the last of exactly maxSize characters, whose
concatenation is the line. -/
theorem claim_C4 (txt l : List Char) (size : Nat) (hs : 1 ≤ size)
    (hsplit : splitLines (normalize_text txt) = [l])
    (hnosp : ∀ c ∈ l, pySpace c = false)
    (hlong : size < l.length) :
    chunk_text txt size = hardSplit size l ∧
    (chunk_text txt size).length = (l.length + size - 1) / size ∧
    (∀ c ∈ (chunk_text txt size).dropLast, c.length = size) ∧
    (chunk_text txt size).join = l := by
  have hmain := chunk_text_single_long hs hsplit hnosp hlong
  refine ⟨hmain, ?_, ?_, ?_⟩
  · rw [hmain]
    exact hardSplitGo_length hs _ _ le_rfl
  · rw [hmain]
    exact hardSplitGo_dropLast hs _ _ le_rfl
  · rw [hmain]
    exact hardSplit_join hs l

/-- C4 witness: the line "aaaaa" with maxSize 2 splits into aa / aa / a. -/
theorem claim_C4_witness :
    (splitLines (normalize_text (List.replicate 5 'a')) = [List.replicate 5 'a'] ∧
      (∀ c ∈ List.replicate 5 'a', pySpace c = false) ∧ 2 < (List.replicate 5 'a').length) ∧
    (chunk_text (List.replicate 5 'a') 2 = hardSplit 2 (List.replicate 5 'a') ∧
      (chunk_text (List.replicate 5 'a') 2).length = ((List.replicate 5 'a').length + 2 - 1) / 2 ∧
      (∀ c ∈ (chunk_text (List.replicate 5 'a') 2).dropLast, c.length = 2) ∧
      (chunk_text (List.replicate 5 'a') 2).join = List.replicate 5 'a') :=
  ⟨⟨by decide, by decide, by decide⟩,
    claim_C4 (List.replicate 5 'a') (List.replicate 5 'a') 2 (by decide) (by decide)
      (by decide) (by decide)⟩

/-- C5 counterexample: a batch consisting of one card that is empty after
fitting produces a payload with zero cards, and the transport IS still
called once with that empty payload — the code does not skip the send. -/
theorem claim_C5_counterexample :
    (send_embeds_in_batches okTr [emptyCard]).2 = [Payload.mk []] ∧
      (send_embeds_in_batches okTr [emptyCard]).2 ≠ [] := by
  refine ⟨by decide, by decide⟩

/-- C5 (amended): every card of every batch payload prepared for dispatch
is non-empty (cards whose title, description and fields are all empty
after fitting are filtered out); however a batch left with zero cards
still triggers a transport call with an empty card list. -/
theorem claim_C5 : ∀ embeds : List Embed,
    ((batches embeds).map mkBatchPayload).all (fun pl => pl.embeds.all isTruthyEmbed) = true := by
  intro embeds
  rw [List.all_eq_true]
  intro pl hpl
  obtain ⟨b, hb, hbeq⟩ := List.mem_map.mp hpl
  subst hbeq
  rw [List.all_eq_true]
  intro em hem
  unfold mkBatchPayload at hem
  exact List.of_mem_filter hem

/-- C6: a transport rejection whose body does not contain the oversize
substring causes an immediate fatal error after a single transport call:
no retry happens. -/
theorem claim_C6 (tr : Nat → Payload → Resp) (p : Payload)
    (h1 : (tr 0 p).ok = false)
    (h2 : containsSub oversizeNeedle (tr 0 p).text = false) :
    retry_shrink_and_send tr p 3 = (Except.error SendErr.payloadErr, [p]) := by
  unfold retry_shrink_and_send
  exact retrySendGo_other h1 h2

/-- C6 witness: a concrete transport rejecting with body "z". -/
theorem claim_C6_witness :
    retry_shrink_and_send rejectOtherTr ⟨[]⟩ 3 = (Except.error SendErr.payloadErr, [⟨[]⟩]) :=
  claim_C6 rejectOtherTr ⟨[]⟩ rfl (by decide)

/-- C7 counterexample: a card whose only field value has 500 characters is
within every hard per-subfield maximum (500 ≤ 1024), yet _clean_embed
changes it: the value is soft-truncated to 450 characters plus an
ellipsis.  Clamping an already-hard-clamped card is not a no-op. -/
theorem claim_C7_counterexample :
    withinHardMaxima c7card ∧ clean_embed c7card ≠ c7card := by
  decide

/-- C7 (amended): _clean_embed leaves a card unchanged when the card is
already in cleaned form: title/description stripped, non-empty and within
their maxima, the field list (when present) non-empty with every name and
value a non-empty fixed point of text normalization, names ≤ 256 and
values within the SOFT maximum 450 — not the 1024 hard maximum. -/
theorem claim_C7 (e : Embed)
    (ht : match e.title with
      | none => True
      | some t => pyStrip t = t ∧ t ≠ [] ∧ t.length ≤ DISCORD_MAX_TITLE)
    (hd : match e.description with
      | none => True
      | some t => pyStrip t = t ∧ t ≠ [] ∧ t.length ≤ DISCORD_MAX_DESC)
    (hf : match e.fields with
      | none => True
      | some fs => fs ≠ [] ∧ ∀ f ∈ fs,
          normalize_text f.name = f.name ∧ f.name ≠ [] ∧ f.name.length ≤ 256 ∧
          normalize_text f.value = f.value ∧ f.value ≠ [] ∧
          f.value.length ≤ FIELD_SOFT_MAX) :
    clean_embed e = e :=
  clean_embed_fixed e ht hd hf

/-- C7 witness: a concrete already-clean card is untouched. -/
theorem claim_C7_witness :
    ((match c7good.title with
      | none => True
      | some t => pyStrip t = t ∧ t ≠ [] ∧ t.length ≤ DISCORD_MAX_TITLE) ∧
      (match c7good.description with
      | none => True
      | some t => pyStrip t = t ∧ t ≠ [] ∧ t.length ≤ DISCORD_MAX_DESC) ∧
      (match c7good.fields with
      | none => True
      | some fs => fs ≠ [] ∧ ∀ f ∈ fs,
          normalize_text f.name = f.name ∧ f.name ≠ [] ∧ f.name.length ≤ 256 ∧
          normalize_text f.value = f.value ∧ f.value ≠ [] ∧
          f.value.length ≤ FIELD_SOFT_MAX)) ∧
    clean_embed c7good = c7good :=
  ⟨⟨⟨by decide, by decide, by decide⟩, ⟨by decide, by decide, by decide⟩,
      ⟨by decide, by decide⟩⟩,
    claim_C7 c7good ⟨by decide, by decide, by decide⟩ ⟨by decide, by decide, by decide⟩
      ⟨by decide, by decide⟩⟩

/-- C8 counterexample: the input "subscribe" is a junk line, but the
Segmenter does not filter junk: joining its chunks yields "subscribe"
while the non-empty non-junk lines of the input are empty. -/
theorem claim_C8_counterexample :
    joinNL (chunk_text c8txt 450) ≠ joinNL (nonJunkLines c8txt) := by
  decide

/-- C8 (amended): for every input and positive maxSize such that every
kept (non-empty, stripped) line of the NORMALIZED input fits in maxSize,
concatenating the chunks with newlines reinserted reproduces exactly those
kept lines in original order.  Junk lines are NOT filtered by the
Segmenter, and lines longer than maxSize are hard-split (losing slice
boundary whitespace), so neither appears in the amended statement. -/
theorem claim_C8 (txt : List Char) (size : Nat) (hs : 1 ≤ size)
    (hl : ∀ l ∈ goodLines txt, l.length ≤ size) :
    joinNL (chunk_text txt size) = joinNL (goodLines txt) :=
  chunk_text_joinNL txt size hs hl

/-- C8 witness: a concrete two-line input at maxSize 450. -/
theorem claim_C8_witness :
    (1 ≤ 450 ∧ ∀ l ∈ goodLines ("ab\ncd".toList), l.length ≤ 450) ∧
      joinNL (chunk_text ("ab\ncd".toList) 450) = joinNL (goodLines ("ab\ncd".toList)) :=
  ⟨⟨by decide, by decide⟩, claim_C8 ("ab\ncd".toList) 450 (by decide) (by decide)⟩

/-- C9 counterexample: on "# T\nbody\nLinks\nurl1" the returned bullet
body is everything after the leading heading — INCLUDING the Links
heading and the link list (the title-match overwrite at the end of
split_summary_links discards the links split) — so the bullet body
contains the returned link list and is not the text before the heading. -/
theorem claim_C9_counterexample :
    containsSub (split_summary_links c9md c9fb).2.2 (split_summary_links c9md c9fb).2.1 = true ∧
    (split_summary_links c9md c9fb).2.2 ≠ [] ∧
    (split_summary_links c9md c9fb).2.1 ≠ pyStrip ((partsOf (pyStrip c9md)).getD 0 []) := by
  decide

/-- C9 (amended): when the document splits on a Links/Liens heading, the
returned link list is the stripped text between the first heading and the
next one (or the end); the bullet body is the stripped text before the
heading ONLY when there is no leading title heading — when a leading
heading matches and text follows it, the bullet body is instead the whole
stripped remainder after the heading, which includes the link section;
the title is the stripped heading text, else the fallback. -/
theorem claim_C9 (md fb : List Char) (h1 : pyStrip md ≠ [])
    (h2 : 2 ≤ (partsOf (pyStrip md)).length) :
    (split_summary_links md fb).2.2 = pyStrip ((partsOf (pyStrip md)).getD 1 []) ∧
    (split_summary_links md fb).2.1 =
      (match titleMatch (pyStrip md) with
       | none => pyStrip ((partsOf (pyStrip md)).getD 0 [])
       | some (_, en) =>
         if en < (pyStrip md).length then pyStrip ((pyStrip md).drop en)
         else pyStrip ((partsOf (pyStrip md)).getD 0 [])) ∧
    (split_summary_links md fb).1 =
      (match titleMatch (pyStrip md) with
       | none => fb
       | some (g, _) => pyStrip g) :=
  split_summary_links_parts md fb h1 h2

/-- C9 witness: the counterexample document instantiates the amended
characterization. -/
theorem claim_C9_witness :
    (pyStrip c9md ≠ [] ∧ 2 ≤ (partsOf (pyStrip c9md)).length) ∧
      ((split_summary_links c9md c9fb).2.2 = pyStrip ((partsOf (pyStrip c9md)).getD 1 []) ∧
      (split_summary_links c9md c9fb).2.1 =
        (match titleMatch (pyStrip c9md) with
         | none => pyStrip ((partsOf (pyStrip c9md)).getD 0 [])
         | some (_, en) =>
           if en < (pyStrip c9md).length then pyStrip ((pyStrip c9md).drop en)
           else pyStrip ((partsOf (pyStrip c9md)).getD 0 [])) ∧
      (split_summary_links c9md c9fb).1 =
        (match titleMatch (pyStrip c9md) with
         | none => c9fb
         | some (g, _) => pyStrip g)) :=
  ⟨⟨by decide, by decide⟩, claim_C9 c9md c9fb (by decide) (by decide)⟩

/-- C10: the fitted card never exceeds the size of the cleaned card, and
no individual step grows a card: each tier-1 and tier-2 shrink step (the
suffix truncations with their appended ellipsis, the description clear,
the field drop, each followed by a re-clean) and _clean_embed itself never
increase the computed embed size. -/
theorem claim_C10 (e : Embed) (t : Nat) :
    embed_size (shrink_to_fit e t) ≤ embed_size (clean_embed e) ∧
    (∀ x : Embed, embed_size ((tier1Step x).getD x) ≤ embed_size x) ∧
    (∀ x : Embed, embed_size ((tier2Step x).getD x) ≤ embed_size x) ∧
    (∀ x : Embed, embed_size (clean_embed x) ≤ embed_size x) := by
  refine ⟨shrink_size_le_clean e t, ?_, ?_, embed_size_clean_le⟩
  · intro x
    rcases h : tier1Step x with _ | ⟨x2⟩
    · simp
    · simpa using tier1Step_size_le h
  · intro x
    rcases h : tier2Step x with _ | ⟨x2⟩
    · simp
    · simpa using tier2Step_size_le h
